import Mathlib

/-!
# LLP-OI server: aggregation and stream ingestion

A shallow embedding of `src/server.js`: the position aggregator
`sumPositionValuesFromApiResponse`, the market open-interest store
(`marketIndexToOi`, `lastExchangeOiUpdate`, `wsSamples`, `getExchangeOiTotal`) and the
WebSocket message handler with its helpers `tryExtractOi` and `upsertMarket`.

## Modelling conventions

* A JavaScript value that can occur in the program is `undefined` or a value produced by
  `JSON.parse`.  `Json` is the second kind, `JSVal := Option Json` adds `undefined` as `none`.
* A JavaScript number is `NaN`, `+Infinity`, `-Infinity` or a finite value.  The control flow of
  the program observes numbers only through `Number.isFinite` and through truthiness, so a
  finite number carries its exact rational value: additions overflow to an infinity at the
  binary64 threshold, the rounding of the low-order bits of an in-range result is not
  modelled, and `-0` is identified with `0` (the two are `===`).
* Strings are Lean strings; where the program counts UTF-16 code units (`slice`), the
  string is taken as its sequence of code units.
* A thrown exception is a value: expressions return `Except JSError _`, statements that
  mutate the store return a `Completion` that keeps the state reached when the exception
  was thrown.
* `JSON.parse`, `Date.now` and `JSON.stringify` belong to the runtime.  The handler takes the
  outcome of `JSON.parse` (`none` when it throws), the clock reading, and the serialiser as
  arguments.  The serialiser returns the text or throws (`none`): `JSON.stringify` raises a
  `RangeError` on a parsed value whose nesting exhausts the stack of the engine.
-/

set_option exponentiation.threshold 1100

namespace LLPOI

/-! ## Numbers -/

/-- A JavaScript number. -/
inductive JSNum where
  | fin (q : ℚ)
  | nan
  | posInf
  | negInf
  deriving DecidableEq

namespace JSNum

/-- The least magnitude that binary64 round-to-nearest sends to an infinity:
halfway between the largest finite double and `2 ^ 1024`. -/
def overflowThreshold : ℚ := ((2 ^ 1024 - 2 ^ 970 : ℕ) : ℚ)

/-- The number denoted by an exact real result: itself, or an infinity on overflow. -/
def ofRat (q : ℚ) : JSNum :=
  if overflowThreshold ≤ q then posInf
  else if q ≤ -overflowThreshold then negInf
  else fin q

/-- The test `Number.isFinite(x)` on a number. -/
def isFinite : JSNum → Bool
  | fin _ => true
  | _ => false

/-- The sum `a + b` of two numbers. -/
def add : JSNum → JSNum → JSNum
  | fin a, fin b => ofRat (a + b)
  | nan, _ => nan
  | _, nan => nan
  | posInf, negInf => nan
  | negInf, posInf => nan
  | posInf, _ => posInf
  | _, posInf => posInf
  | negInf, _ => negInf
  | _, negInf => negInf

/-- The value `Math.abs(x)`. -/
def abs : JSNum → JSNum
  | fin q => fin |q|
  | nan => nan
  | posInf => posInf
  | negInf => posInf

/-- The comparison `x >= 0`. -/
def isNonneg : JSNum → Bool
  | fin q => decide (0 ≤ q)
  | posInf => true
  | _ => false

/-- A finite number is in range when its magnitude is below the overflow threshold;
every binary64 value is. -/
def InRange : JSNum → Prop
  | fin q => |q| < overflowThreshold
  | _ => True

end JSNum

/-! ## Strings and numbers: `Number(string)` and `String(number)` -/

/-- The characters `StrWhiteSpaceChar` that `Number` strips from both ends of a string:
white space and line terminators. -/
def isStrWhiteSpaceChar (c : Char) : Bool :=
  let n := c.toNat
  n == 0x09 || n == 0x0A || n == 0x0B || n == 0x0C || n == 0x0D || n == 0x20 || n == 0xA0
    || n == 0x1680 || (0x2000 ≤ n && n ≤ 0x200A) || n == 0x2028 || n == 0x2029
    || n == 0x202F || n == 0x205F || n == 0x3000 || n == 0xFEFF

/-- The value of a digit character in a radix up to sixteen. -/
def digitValue (c : Char) : Nat :=
  if c.isDigit then c.toNat - '0'.toNat
  else if 'a'.toNat ≤ c.toNat && c.toNat ≤ 'f'.toNat then c.toNat - 'a'.toNat + 10
  else c.toNat - 'A'.toNat + 10

/-- The characters that are digits of the given radix (2, 8, 10 or 16). -/
def isRadixDigit (radix : Nat) (c : Char) : Bool :=
  (c.isDigit || ('a'.toNat ≤ c.toNat && c.toNat ≤ 'f'.toNat)
    || ('A'.toNat ≤ c.toNat && c.toNat ≤ 'F'.toNat)) && decide (digitValue c < radix)

/-- The natural number written by a digit sequence. -/
def digitsToNat (radix : Nat) (ds : List Char) : Nat :=
  ds.foldl (fun acc c => acc * radix + digitValue c) 0

/-- The rational `m * 10 ^ e`. -/
def scale10 (m : Nat) (e : Int) : ℚ :=
  if 0 ≤ e then (m : ℚ) * (10 : ℚ) ^ e.toNat else (m : ℚ) / (10 : ℚ) ^ (-e).toNat

/-- The decimal digits of an `ExponentPart`, when the list is one. -/
def parseExponentDigits (ds : List Char) : Option Nat :=
  if !ds.isEmpty && ds.all Char.isDigit then some (digitsToNat 10 ds) else none

/-- The optional `ExponentPart` that ends a decimal literal: its value, `0` when absent,
`none` when the remaining characters are not an exponent part. -/
def parseExponent : List Char → Option Int
  | [] => some 0
  | c :: rest =>
    if c == 'e' || c == 'E' then
      match rest with
      | '+' :: ds => (parseExponentDigits ds).map (fun n => (n : Int))
      | '-' :: ds => (parseExponentDigits ds).map (fun n => -(n : Int))
      | ds => (parseExponentDigits ds).map (fun n => (n : Int))
    else none

/-- An unsigned decimal literal (`12`, `12.`, `12.5`, `.5`, each with an optional exponent)
and its exact value. -/
def parseUnsignedDecimal (cs : List Char) : Option ℚ :=
  let intPart := cs.takeWhile Char.isDigit
  let rest := cs.dropWhile Char.isDigit
  let fracPart := match rest with
    | '.' :: t => t.takeWhile Char.isDigit
    | _ => []
  let tail := match rest with
    | '.' :: t => t.dropWhile Char.isDigit
    | _ => rest
  if intPart.isEmpty && fracPart.isEmpty then none
  else (parseExponent tail).map
    (fun e => scale10 (digitsToNat 10 (intPart ++ fracPart)) (e - (fracPart.length : Int)))

/-- An unsigned `StrDecimalLiteral`: `Infinity` or a decimal literal; `NaN` otherwise. -/
def unsignedLiteral (cs : List Char) : JSNum :=
  if cs = "Infinity".toList then JSNum.posInf
  else match parseUnsignedDecimal cs with
    | some q => JSNum.ofRat q
    | none => JSNum.nan

/-- The negation `-x`. -/
def JSNum.neg : JSNum → JSNum
  | .fin q => .fin (-q)
  | .nan => .nan
  | .posInf => .negInf
  | .negInf => .posInf

/-- A non-decimal integer literal body: one or more digits of the radix. -/
def radixLiteral (radix : Nat) (ds : List Char) : JSNum :=
  if !ds.isEmpty && ds.all (isRadixDigit radix) then JSNum.ofRat (digitsToNat radix ds)
  else JSNum.nan

/-- The conversion `Number(s)` of a string: white space is trimmed, the empty string is `0`,
a signed decimal literal, `Infinity` or an unsigned `0x`/`0o`/`0b` literal has its value, and
anything else is `NaN`. -/
def stringToNumber (s : String) : JSNum :=
  let cs := ((s.toList.dropWhile isStrWhiteSpaceChar).reverse.dropWhile
    isStrWhiteSpaceChar).reverse
  match cs with
  | [] => JSNum.fin 0
  | '+' :: rest => unsignedLiteral rest
  | '-' :: rest => (unsignedLiteral rest).neg
  | '0' :: 'x' :: ds => radixLiteral 16 ds
  | '0' :: 'X' :: ds => radixLiteral 16 ds
  | '0' :: 'o' :: ds => radixLiteral 8 ds
  | '0' :: 'O' :: ds => radixLiteral 8 ds
  | '0' :: 'b' :: ds => radixLiteral 2 ds
  | '0' :: 'B' :: ds => radixLiteral 2 ds
  | _ => unsignedLiteral cs

/-- How many times `p` divides `n`, counted with the given fuel. -/
def countFactor (p : Nat) : Nat → Nat → Nat
  | 0, _ => 0
  | fuel + 1, n => if n % p = 0 ∧ n ≠ 0 then countFactor p fuel (n / p) + 1 else 0

/-- The text of `Number::toString` for significant digits `ds` (the digits of `s`, `k` of
them) and decimal exponent `n`, the value being `s * 10 ^ (n - k)`. -/
def formatDigits (ds : List Char) (n : Int) : String :=
  let k : Int := ds.length
  if k ≤ n ∧ n ≤ 21 then String.mk (ds ++ List.replicate (n - k).toNat '0')
  else if 0 < n ∧ n ≤ 21 then String.mk (ds.take n.toNat ++ '.' :: ds.drop n.toNat)
  else if -6 < n ∧ n ≤ 0 then String.mk ('0' :: '.' :: List.replicate (-n).toNat '0' ++ ds)
  else
    let e := n - 1
    let expo := (if 0 ≤ e then '+' else '-') :: Nat.toDigits 10 e.natAbs
    match ds with
    | [d] => String.mk (d :: 'e' :: expo)
    | d :: more => String.mk (d :: '.' :: more ++ 'e' :: expo)
    | [] => String.mk ('e' :: expo)

/-- The text of a positive rational with a terminating decimal expansion, from its exact
digits.  A rational without one is no JSON numeral; it is written as a fraction. -/
def positiveToString (q : ℚ) : String :=
  let den := q.den
  let shift := max (countFactor 2 den den) (countFactor 5 den den)
  if 10 ^ shift % den = 0 then
    let scaled := q.num.natAbs * 10 ^ shift / den
    let zeros := countFactor 10 scaled scaled
    let ds := Nat.toDigits 10 (scaled / 10 ^ zeros)
    formatDigits ds ((ds.length : Int) + (zeros : Int) - (shift : Int))
  else String.mk (Nat.toDigits 10 q.num.natAbs ++ '/' :: Nat.toDigits 10 den)

/-- The conversion `String(x)` of a number. -/
def numberToString : JSNum → String
  | .nan => "NaN"
  | .posInf => "Infinity"
  | .negInf => "-Infinity"
  | .fin q =>
    if q = 0 then "0"
    else if q < 0 then "-" ++ positiveToString (-q)
    else positiveToString q

/-- The test `s.includes(pat)` on character lists. -/
def listIncludes (pat : List Char) : List Char → Bool
  | [] => pat.isEmpty
  | c :: cs => pat.isPrefixOf (c :: cs) || listIncludes pat cs

/-- The test `s.includes(pat)`. -/
def jsIncludes (s pat : String) : Bool := listIncludes pat.toList s.toList

/-- The test `s.startsWith(pat)`. -/
def jsStartsWith (s pat : String) : Bool := pat.toList.isPrefixOf s.toList

/-! ## Values -/

/-- A value produced by `JSON.parse`.  The entries of an object are its own properties in
enumeration order. -/
inductive Json where
  | null
  | bool (b : Bool)
  | num (n : JSNum)
  | str (s : String)
  | arr (xs : List Json)
  | obj (kvs : List (String × Json))

/-- A JavaScript value of the program: `none` is `undefined`. -/
abbrev JSVal := Option Json

/-- The only exception the program can raise on parsed values. -/
inductive JSError where
  | typeError
  deriving DecidableEq

/-- The results of `typeof`. -/
inductive JSType where
  | undefined
  | object
  | boolean
  | number
  | string
  deriving DecidableEq

/-- The operator `typeof v`. -/
def typeOf : JSVal → JSType
  | none => .undefined
  | some .null => .object
  | some (.bool _) => .boolean
  | some (.num _) => .number
  | some (.str _) => .string
  | some (.arr _) => .object
  | some (.obj _) => .object

/-- Truthiness, as tested by `!v`, `v && ...` and `if (v)`. -/
def truthy : JSVal → Bool
  | none => false
  | some .null => false
  | some (.bool b) => b
  | some (.num (.fin q)) => decide (q ≠ 0)
  | some (.num .nan) => false
  | some (.num _) => true
  | some (.str s) => decide (s ≠ "")
  | some (.arr _) => true
  | some (.obj _) => true

/-- The test `Array.isArray(v)`. -/
def isArray : JSVal → Bool
  | some (.arr _) => true
  | _ => false

/-- The element of an array at a property key: defined when the key is the canonical
decimal string of an index below the length. -/
def arrayGet (xs : List Json) (k : String) : JSVal :=
  (xs.enum.find? (fun p => Nat.repr p.1 == k)).map Prod.snd

/-- The read `v.k` (or `v[k]`) on a value that is neither `null` nor `undefined`, for the
names the program reads: its fixed field names, none of which is on a built-in prototype, and
the keys that `Object.keys` enumerates. -/
def Json.get (v : Json) (k : String) : JSVal :=
  match v with
  | .obj kvs => kvs.lookup k
  | .arr xs => arrayGet xs k
  | _ => none

/-- The property read `v.k`: a `TypeError` on `null` and `undefined`. -/
def getProp (v : JSVal) (k : String) : Except JSError JSVal :=
  match v with
  | none => .error .typeError
  | some .null => .error .typeError
  | some j => .ok (j.get k)

/-- The optional chain `v?.k`. -/
def optProp (v : JSVal) (k : String) : JSVal :=
  match v with
  | none => none
  | some .null => none
  | some j => j.get k

/-- The nullish coalescing `a ?? b`. -/
def nullish (a b : JSVal) : JSVal :=
  match a with
  | none => b
  | some .null => b
  | some j => some j

/-- The keys `Object.keys(v)` of an object or an array. -/
def objectKeys : Json → List String
  | .obj kvs => kvs.map Prod.fst
  | .arr xs => (List.range xs.length).map Nat.repr
  | _ => []

mutual
/-- The conversion `String(v)`.  An array joins the conversions of its elements with commas,
`null` elements giving the empty string.  An object without an own `toString` property is
`[object Object]`; with one, which parsed JSON cannot make callable, the conversion to a
primitive fails with a `TypeError`. -/
def toStr : Json → Except JSError String
  | .null => .ok "null"
  | .bool b => .ok (if b then "true" else "false")
  | .num n => .ok (numberToString n)
  | .str s => .ok s
  | .arr xs => (joinStr xs).map (fun parts => ",".intercalate parts)
  | .obj kvs =>
    if (kvs.map Prod.fst).contains "toString" then .error .typeError
    else .ok "[object Object]"
/-- The strings that `Array.prototype.join` puts between the separators. -/
def joinStr : List Json → Except JSError (List String)
  | [] => .ok []
  | x :: xs =>
    match (match x with | .null => Except.ok "" | _ => toStr x) with
    | .error e => .error e
    | .ok a =>
      match joinStr xs with
      | .error e => .error e
      | .ok rest => .ok (a :: rest)
end

/-- The conversion `String(v)` of a value that may be `undefined`. -/
def stringOf : JSVal → Except JSError String
  | none => .ok "undefined"
  | some j => toStr j

/-! ## The position aggregator -/

/-- The summary returned by `sumPositionValuesFromApiResponse`. -/
structure PositionSummary where
  total : JSNum
  count : Nat
  openInterest : JSNum
  deriving DecidableEq

/-- The summary `{ total: 0, count: 0, openInterest: 0 }`. -/
def PositionSummary.zero : PositionSummary := ⟨.fin 0, 0, .fin 0⟩

/-- The number a raw `position_value` is coerced to: `Number(valueRaw)` for a string, the
value itself for a number, `0` for anything else. -/
def coercePositionValue (valueRaw : JSVal) : JSNum :=
  match valueRaw with
  | some (.str s) => stringToNumber s
  | some (.num n) => n
  | _ => .fin 0

/-- The body of the loop over positions: the accumulators after one position. -/
def accumulatePosition (acc : PositionSummary) (position : Json) : PositionSummary :=
  let valueRaw := optProp (some position) "position_value"
  let value := coercePositionValue valueRaw
  if value.isFinite then
    ⟨acc.total.add value, acc.count + 1, acc.openInterest.add value.abs⟩
  else acc

/-- The list `Array.isArray(v) ? v : []`. -/
def arrayOrEmpty : JSVal → List Json
  | some (.arr xs) => xs
  | _ => []

/-- The function `sumPositionValuesFromApiResponse` of `server.js`. -/
def sumPositionValuesFromApiResponse (apiResponseJson : JSVal) :
    Except JSError PositionSummary :=
  if !truthy apiResponseJson then .ok PositionSummary.zero
  else
    (getProp apiResponseJson "accounts").bind fun accounts =>
    if !truthy accounts || !isArray accounts then .ok PositionSummary.zero
    else
      (getProp accounts "0").bind fun account =>
      let positions := arrayOrEmpty (optProp account "positions")
      .ok (positions.foldl accumulatePosition PositionSummary.zero)

/-! ## The market open-interest store -/

/-- An entry of `wsSamples`. -/
structure Sample where
  ts : Nat
  sample : List Nat
  deriving DecidableEq

/-- The module state of the exchange open-interest aggregator: the `Map`
`marketIndexToOi` as its entries in insertion order, `lastExchangeOiUpdate` and
`wsSamples`. -/
structure State where
  marketIndexToOi : List (String × JSNum)
  lastExchangeOiUpdate : Nat
  wsSamples : List Sample
  deriving DecidableEq

/-- The state at module load. -/
def State.init : State := ⟨[], 0, []⟩

/-- The method `Map.prototype.set`: the value of an existing key is replaced in place, a
new key is appended. -/
def mapSet (key : String) (value : JSNum) : List (String × JSNum) → List (String × JSNum)
  | [] => [(key, value)]
  | (k, v) :: rest => if k = key then (key, value) :: rest else (k, v) :: mapSet key value rest

/-- The function `getExchangeOiTotal` of `server.js`. -/
def getExchangeOiTotal (st : State) : JSNum :=
  (st.marketIndexToOi.map Prod.snd).foldl
    (fun total value => if value.isFinite then total.add value.abs else total) (.fin 0)

/-! ## The message handler -/

/-- How a statement sequence ends: normally, or by a thrown exception, each with the
state reached. -/
inductive Completion where
  | normal (st : State)
  | thrown (st : State)
  deriving DecidableEq

/-- The state a completion carries. -/
def Completion.state : Completion → State
  | .normal st => st
  | .thrown st => st

/-- The method `Array.prototype.forEach` with a callback that mutates the state: the
iteration stops at the first exception. -/
def forEach {α : Type} (f : State → α → Completion) : State → List α → Completion
  | st, [] => .normal st
  | st, x :: xs =>
    match f st x with
    | .normal st1 => forEach f st1 xs
    | .thrown st1 => .thrown st1

/-- The closure `tryExtractOi` of the message handler; `none` is `undefined`. -/
def tryExtractOi (obj : JSVal) : Option JSNum :=
  if !truthy obj || typeOf obj ≠ .object then none
  else
    let v := nullish (optProp obj "open_interest")
      (nullish (optProp obj "openInterest") (optProp obj "oi"))
    let num : Option JSNum :=
      match v with
      | some (.str s) => some (stringToNumber s)
      | some (.num n) => some n
      | _ => none
    match num with
    | some n => if n.isFinite then some n else none
    | none => none

/-- The closure `upsertMarket` of the message handler. -/
def upsertMarket (st : State) (now : Nat) (marketIdLike : JSVal) (oiVal : JSNum) :
    Completion :=
  match stringOf (nullish marketIdLike (some (.str "unknown"))) with
  | .error _ => .thrown st
  | .ok key =>
    if oiVal.isFinite then
      .normal { st with
        marketIndexToOi := mapSet key oiVal st.marketIndexToOi
        lastExchangeOiUpdate := now }
    else .normal st

/-- The expression `x?.market_id ?? x?.marketIndex ?? x?.market`. -/
def marketIdOf (x : JSVal) : JSVal :=
  nullish (optProp x "market_id") (nullish (optProp x "marketIndex") (optProp x "market"))

/-- The statements shared by the list, `market_stats`, `type` and `channel` branches:
extract the open interest and the market identifier of `x`, upsert when both are defined. -/
def upsertFrom (now : Nat) (st : State) (x : JSVal) : Completion :=
  match tryExtractOi x, marketIdOf x with
  | some oi, some mid => upsertMarket st now (some mid) oi
  | _, _ => .normal st

/-- The callback of the `stats` branch for the key `k`. -/
def upsertStat (now : Nat) (stats : Json) (st : State) (k : String) : Completion :=
  match tryExtractOi (stats.get k) with
  | some oi => upsertMarket st now (some (.str k)) oi
  | none => .normal st

/-- The test `v && typeof v === 'string'` followed by a test of the string. -/
def stringWith (v : JSVal) (test : String → Bool) : Bool :=
  match v with
  | some (.str s) => truthy v && test s
  | _ => false

/-- The shape chain of the message handler, from `if (parsed && typeof parsed === 'object')`
to the end of the `try` block. -/
def extractAndUpsert (now : Nat) (st : State) (parsed : Json) : Completion :=
  if truthy (some parsed) && typeOf (some parsed) = .object then
    match parsed with
    | .arr items => forEach (fun s item => upsertFrom now s (some item)) st items
    | _ =>
      let stats := parsed.get "stats"
      if truthy stats && typeOf stats = .object then
        match stats with
        | some statsObj => forEach (upsertStat now statsObj) st (objectKeys statsObj)
        | none => .normal st
      else if truthy (parsed.get "market_stats") && isArray (parsed.get "market_stats") then
        forEach (fun s item => upsertFrom now s (some item)) st
          (arrayOrEmpty (parsed.get "market_stats"))
      else if stringWith (parsed.get "type") (fun t => jsIncludes t "market_stats") then
        upsertFrom now st (some parsed)
      else if stringWith (parsed.get "channel") (fun c => jsStartsWith c "market_stats") then
        upsertFrom now st
          (nullish (parsed.get "data") (nullish (parsed.get "body") (some parsed)))
      else .normal st
  else .normal st

/-- The UTF-16 code units of a character: itself, or a surrogate pair. -/
def charUnits (c : Char) : List Nat :=
  if c.toNat < 0x10000 then [c.toNat]
  else [0xD800 + (c.toNat - 0x10000) / 0x400, 0xDC00 + (c.toNat - 0x10000) % 0x400]

/-- The UTF-16 code units of a string, which `slice` and `length` count. -/
def utf16Units (s : String) : List Nat :=
  s.toList.flatMap charUnits

/-- The record `{ ts: Date.now(), sample: text.slice(0, 500) }` pushed for a message
parsed at time `now` whose serialisation is `text`; the sample is given by its code units. -/
def sampleOf (now : Nat) (text : String) : Sample :=
  ⟨now, (utf16Units text).take 500⟩

/-- The inner `try` block of the handler, which keeps `wsSamples` a ring buffer: when
`JSON.stringify(parsed)` throws, nothing is pushed and the empty `catch` swallows the
exception; otherwise the sample is pushed and the oldest entry is shifted out once the
length exceeds six. -/
def pushSample (stringify : Json → Option String) (now : Nat) (st : State) (parsed : Json) :
    State :=
  match stringify parsed with
  | none => st
  | some text =>
    let pushed := st.wsSamples ++ [sampleOf now text]
    { st with wsSamples := if pushed.length > 6 then pushed.tail else pushed }

/-- The `message` handler of the WebSocket.  `message` is the outcome of
`JSON.parse(message.toString())`, `none` when it throws; every exception is swallowed by the
outer `catch`. -/
def onMessage (stringify : Json → Option String) (st : State) (now : Nat) (message : Option Json) :
    State :=
  match message with
  | none => st
  | some parsed => (extractAndUpsert now (pushSample stringify now st parsed) parsed).state

/-- The handler run on a sequence of inbound messages, each given with the clock reading at
its arrival and the outcome of `JSON.parse`. -/
def handleAll (stringify : Json → Option String) (events : List (Nat × Option Json)) (st : State) :
    State :=
  events.foldl (fun s e => onMessage stringify s e.1 e.2) st

/-! ## The shape chain as a list of matchers -/

/-- The `(id, value)` pairs extracted from one payload: one pair when both the open interest
and the market identifier are defined, none otherwise. -/
def pairOf (x : JSVal) : List (Json × JSNum) :=
  match tryExtractOi x, marketIdOf x with
  | some oi, some mid => [(mid, oi)]
  | _, _ => []

/-- Matcher 1: the message is a list. -/
def listMatcher (parsed : Json) : Option (List (Json × JSNum)) :=
  match parsed with
  | .arr items => some (items.flatMap fun item => pairOf (some item))
  | _ => none

/-- Matcher 2: the message has a `stats` object keyed by market identifier. -/
def statsMatcher (parsed : Json) : Option (List (Json × JSNum)) :=
  match parsed.get "stats" with
  | some statsObj =>
    if truthy (some statsObj) && typeOf (some statsObj) = .object then
      some ((objectKeys statsObj).flatMap fun k =>
        match tryExtractOi (statsObj.get k) with
        | some oi => [(Json.str k, oi)]
        | none => [])
    else none
  | none => none

/-- Matcher 3: the message has a `market_stats` list. -/
def marketStatsMatcher (parsed : Json) : Option (List (Json × JSNum)) :=
  match parsed.get "market_stats" with
  | some (.arr items) => some (items.flatMap fun item => pairOf (some item))
  | _ => none

/-- Matcher 4: the message has a string `type` containing `market_stats`. -/
def typeMatcher (parsed : Json) : Option (List (Json × JSNum)) :=
  if stringWith (parsed.get "type") (fun t => jsIncludes t "market_stats") then
    some (pairOf (some parsed))
  else none

/-- Matcher 5: the message has a string `channel` starting with `market_stats`; the payload
is its `data`, else its `body`, else the message. -/
def channelMatcher (parsed : Json) : Option (List (Json × JSNum)) :=
  if stringWith (parsed.get "channel") (fun c => jsStartsWith c "market_stats") then
    some (pairOf (nullish (parsed.get "data") (nullish (parsed.get "body") (some parsed))))
  else none

/-- The matchers in priority order. -/
def matchers : List (Json → Option (List (Json × JSNum))) :=
  [listMatcher, statsMatcher, marketStatsMatcher, typeMatcher, channelMatcher]

/-- The combination rule of the design notes: the matchers are tried in order and the first
non-empty result wins. -/
def specFirstNonEmpty (ms : List (Json → Option (List (Json × JSNum)))) (parsed : Json) :
    List (Json × JSNum) :=
  match ms with
  | [] => []
  | m :: rest =>
    match m parsed with
    | some (p :: ps) => p :: ps
    | _ => specFirstNonEmpty rest parsed

/-- The combination rule of the `if`/`else if` chain: the first matcher whose shape test
succeeds wins, whatever it yields. -/
def firstApplicable (ms : List (Json → Option (List (Json × JSNum)))) (parsed : Json) :
    List (Json × JSNum) :=
  match ms with
  | [] => []
  | m :: rest =>
    match m parsed with
    | some ps => ps
    | none => firstApplicable rest parsed

/-- The upserts of a list of pairs, in order, up to the first exception. -/
def upsertAll (now : Nat) (st : State) (pairs : List (Json × JSNum)) : Completion :=
  forEach (fun s pr => upsertMarket s now (some pr.1) pr.2) st pairs

/-! ## A serialiser -/

/-- The two hexadecimal digits of a control character in a `\u00XX` escape. -/
def hexPair (n : Nat) : List Char :=
  if n < 16 then '0' :: Nat.toDigits 16 n else Nat.toDigits 16 n

/-- The text `QuoteJSONString` writes for one character. -/
def quoteChar (c : Char) : List Char :=
  if c = '\x22' then ['\x5c', '\x22']
  else if c = '\x5c' then ['\x5c', '\x5c']
  else if c.toNat = 8 then ['\x5c', 'b']
  else if c.toNat = 12 then ['\x5c', 'f']
  else if c.toNat = 10 then ['\x5c', 'n']
  else if c.toNat = 13 then ['\x5c', 'r']
  else if c.toNat = 9 then ['\x5c', 't']
  else if c.toNat < 0x20 then '\x5c' :: 'u' :: '0' :: '0' :: hexPair c.toNat
  else [c]

/-- The quoted form `QuoteJSONString(s)` of a string. -/
def quoteString (s : String) : List Char :=
  '\x22' :: s.toList.flatMap quoteChar ++ ['\x22']

mutual
/-- The text `JSON.stringify(v)` of a parsed value, as characters: a number that is not
finite is written `null`. -/
def jsonText : Json → List Char
  | .null => "null".toList
  | .bool b => if b then "true".toList else "false".toList
  | .num n => if n.isFinite then (numberToString n).toList else "null".toList
  | .str s => quoteString s
  | .arr xs => '[' :: jsonTextItems xs ++ [']']
  | .obj kvs => '\x7b' :: jsonTextFields kvs ++ ['\x7d']
/-- The elements of an array, separated by commas. -/
def jsonTextItems : List Json → List Char
  | [] => []
  | [x] => jsonText x
  | x :: y :: rest => jsonText x ++ ',' :: jsonTextItems (y :: rest)
/-- The properties of an object, separated by commas. -/
def jsonTextFields : List (String × Json) → List Char
  | [] => []
  | [(k, v)] => quoteString k ++ ':' :: jsonText v
  | (k, v) :: f :: rest => quoteString k ++ ':' :: jsonText v ++ ',' :: jsonTextFields (f :: rest)
end

mutual
/-- The nesting depth of a parsed value: how many arrays and objects enclose its innermost
value, itself included. -/
def nestingDepth : Json → Nat
  | .arr xs => nestingDepthItems xs + 1
  | .obj kvs => nestingDepthFields kvs + 1
  | _ => 0
/-- The greatest nesting depth among the elements of an array. -/
def nestingDepthItems : List Json → Nat
  | [] => 0
  | x :: xs => max (nestingDepth x) (nestingDepthItems xs)
/-- The greatest nesting depth among the values of the properties of an object. -/
def nestingDepthFields : List (String × Json) → Nat
  | [] => 0
  | (_, v) :: rest => max (nestingDepth v) (nestingDepthFields rest)
end

/-- The serialiser `JSON.stringify` of an engine whose stack holds `capacity` levels of
nesting: a deeper value raises a `RangeError`. -/
def stringifyWithin (capacity : Nat) (v : Json) : Option String :=
  if nestingDepth v ≤ capacity then some (String.mk (jsonText v)) else none

/-- The value `v` nested in `n` arrays: `[[...[v]...]]`. -/
def nested : Nat → Json → Json
  | 0, v => v
  | n + 1, v => .arr [nested n v]

/-! ## Lemmas on numbers -/

namespace JSNum

theorem overflowThreshold_pos : 0 < overflowThreshold := by
  unfold overflowThreshold
  norm_num

theorem ofRat_of_abs_lt {q : ℚ} (h : |q| < overflowThreshold) : ofRat q = fin q := by
  have h1 := abs_lt.mp h
  unfold ofRat
  rw [if_neg (not_le.mpr h1.2), if_neg (not_le.mpr h1.1)]

theorem inRange_ofRat (q : ℚ) : InRange (ofRat q) := by
  unfold ofRat
  split
  · trivial
  · split
    · trivial
    · rename_i h1 h2
      exact abs_lt.mpr ⟨not_le.mp h2, not_le.mp h1⟩

theorem inRange_add (a b : JSNum) : InRange (a.add b) := by
  cases a <;> cases b <;> first | exact inRange_ofRat _ | trivial

theorem inRange_zero : InRange (fin 0) := by
  show |(0 : ℚ)| < overflowThreshold
  simpa using overflowThreshold_pos

theorem add_zero_of_inRange {t : JSNum} (h : InRange t) : t.add (fin 0) = t := by
  cases t with
  | fin q =>
    show ofRat (q + 0) = fin q
    rw [add_zero]
    exact ofRat_of_abs_lt h
  | nan => rfl
  | posInf => rfl
  | negInf => rfl

theorem isNonneg_ofRat {q : ℚ} (h : 0 ≤ q) : (ofRat q).isNonneg = true := by
  unfold ofRat
  split
  · rfl
  · split
    · rename_i h2
      exact absurd (le_trans h h2) (not_le.mpr (neg_lt_zero.mpr overflowThreshold_pos))
    · simpa [isNonneg] using h

theorem isNonneg_add_abs {t : JSNum} (v : JSNum) (ht : t.isNonneg = true)
    (hv : v.isFinite = true) : (t.add v.abs).isNonneg = true := by
  cases v with
  | fin q =>
    cases t with
    | fin p =>
      have hp : 0 ≤ p := by simpa [isNonneg] using ht
      exact isNonneg_ofRat (add_nonneg hp (abs_nonneg q))
    | nan => simp [isNonneg] at ht
    | posInf => rfl
    | negInf => simp [isNonneg] at ht
  | nan => simp [isFinite] at hv
  | posInf => simp [isFinite] at hv
  | negInf => simp [isFinite] at hv

end JSNum

/-! ## The position aggregator: lemmas -/

/-- The loop over positions, from any accumulators: the finite coerced values are added in
input order. -/
theorem foldl_accumulatePosition (positions : List Json) (acc : PositionSummary) :
    positions.foldl accumulatePosition acc =
      ⟨((positions.map fun p => coercePositionValue (optProp (some p) "position_value")).filter
          JSNum.isFinite).foldl JSNum.add acc.total,
        acc.count + ((positions.map fun p =>
          coercePositionValue (optProp (some p) "position_value")).filter JSNum.isFinite).length,
        (((positions.map fun p => coercePositionValue (optProp (some p) "position_value")).filter
          JSNum.isFinite).map JSNum.abs).foldl JSNum.add acc.openInterest⟩ := by
  induction positions generalizing acc with
  | nil => rfl
  | cons p ps ih =>
    rw [List.foldl_cons, ih]
    by_cases hfin : (coercePositionValue (optProp (some p) "position_value")).isFinite = true
    · simp [accumulatePosition, hfin, List.filter_cons, Nat.add_assoc, Nat.add_comm 1]
    · simp [accumulatePosition, hfin, List.filter_cons]

/-- Reading index `0` of an array gives its first element, `undefined` when it is empty. -/
theorem arrayGet_zero (xs : List Json) : arrayGet xs "0" = xs.head? := by
  have h0 : Nat.repr 0 = "0" := by decide
  cases xs <;> simp [arrayGet, List.enum, List.enumFrom, List.find?, h0]

/-- The aggregator on a value other than `undefined`, by the `accounts` field it has. -/
theorem sum_some (j : Json) :
    sumPositionValuesFromApiResponse (some j) =
      .ok (match j.get "accounts" with
        | some (.arr xs) =>
          if truthy (some j) then
            (arrayOrEmpty (optProp xs.head? "positions")).foldl accumulatePosition
              PositionSummary.zero
          else PositionSummary.zero
        | _ => PositionSummary.zero) := by
  unfold sumPositionValuesFromApiResponse
  by_cases ht : truthy (some j) = true
  · have hg : getProp (some j) "accounts" = .ok (j.get "accounts") := by
      cases j <;> first | rfl | simp [truthy] at ht
    rw [hg]
    simp only [ht, Bool.not_true, Bool.false_eq_true, if_false, if_true]
    cases hacc : j.get "accounts" with
    | none => simp [truthy, Except.bind]
    | some a =>
      cases a with
      | arr xs => simp [truthy, isArray, Except.bind, getProp, Json.get, arrayGet_zero]
      | null => simp [truthy, isArray, Except.bind]
      | bool b => simp [truthy, isArray, Except.bind]
      | num n => simp [truthy, isArray, Except.bind]
      | str s => simp [truthy, isArray, Except.bind]
      | obj kvs => simp [truthy, isArray, Except.bind]
  · have ht2 : truthy (some j) = false := by simpa using ht
    simp only [ht2, Bool.not_false, if_true]
    split <;> simp

/-- The aggregator on an object whose `accounts` is a non-empty list. -/
theorem sum_of_accounts (fields : List (String × Json)) (account : Json) (others : List Json)
    (h : fields.lookup "accounts" = some (.arr (account :: others))) :
    sumPositionValuesFromApiResponse (some (.obj fields)) =
      .ok ((arrayOrEmpty (optProp (some account) "positions")).foldl accumulatePosition
        PositionSummary.zero) := by
  rw [sum_some]
  simp [Json.get, h, truthy]

/-- A position whose `position_value` is neither a string nor a number is coerced to `0`. -/
theorem coerce_of_not_str_num (raw : JSVal) (hs : ∀ s, raw ≠ some (.str s))
    (hn : ∀ n, raw ≠ some (.num n)) : coercePositionValue raw = .fin 0 := by
  unfold coercePositionValue
  split
  · exact absurd rfl (hs _)
  · exact absurd rfl (hn _)
  · rfl

/-- Raising the count of the accumulators commutes with the loop. -/
theorem foldl_accumulatePosition_count (positions : List Json) (acc : PositionSummary) (c : Nat) :
    positions.foldl accumulatePosition ⟨acc.total, acc.count + c, acc.openInterest⟩ =
      ⟨(positions.foldl accumulatePosition acc).total,
        (positions.foldl accumulatePosition acc).count + c,
        (positions.foldl accumulatePosition acc).openInterest⟩ := by
  rw [foldl_accumulatePosition, foldl_accumulatePosition]
  simp [Nat.add_assoc, Nat.add_comm c]

/-- The accumulators of the loop stay in range. -/
theorem inRange_foldl_accumulatePosition (positions : List Json) (acc : PositionSummary)
    (ht : acc.total.InRange) (ho : acc.openInterest.InRange) :
    (positions.foldl accumulatePosition acc).total.InRange ∧
      (positions.foldl accumulatePosition acc).openInterest.InRange := by
  induction positions generalizing acc with
  | nil => exact ⟨ht, ho⟩
  | cons p ps ih =>
    rw [List.foldl_cons]
    apply ih
    · unfold accumulatePosition
      simp only
      split
      · exact JSNum.inRange_add _ _
      · exact ht
    · unfold accumulatePosition
      simp only
      split
      · exact JSNum.inRange_add _ _
      · exact ho

/-! ## The store: lemmas -/

theorem mem_mapSet {key : String} {value : JSNum} {l : List (String × JSNum)}
    {e : String × JSNum} (h : e ∈ mapSet key value l) : e = (key, value) ∨ e ∈ l := by
  induction l with
  | nil =>
    simp [mapSet] at h
    exact Or.inl h
  | cons hd tl ih =>
    obtain ⟨k, v⟩ := hd
    unfold mapSet at h
    split at h
    · rcases List.mem_cons.mp h with h | h
      · exact Or.inl h
      · exact Or.inr (List.mem_cons_of_mem _ h)
    · rcases List.mem_cons.mp h with h | h
      · exact Or.inr (h ▸ List.mem_cons_self _ _)
      · rcases ih h with h | h
        · exact Or.inl h
        · exact Or.inr (List.mem_cons_of_mem _ h)

theorem lookup_mapSet_self (key : String) (value : JSNum) (l : List (String × JSNum)) :
    (mapSet key value l).lookup key = some value := by
  induction l with
  | nil => simp [mapSet, List.lookup]
  | cons hd tl ih =>
    obtain ⟨k, v⟩ := hd
    unfold mapSet
    split
    · simp [List.lookup]
    · rename_i hne
      have hne2 : (key == k) = false := by
        simpa using fun h : key = k => hne h.symm
      simp [List.lookup, hne2, ih]

theorem keys_mapSet (key : String) (value : JSNum) (l : List (String × JSNum)) :
    (mapSet key value l).map Prod.fst =
      if key ∈ l.map Prod.fst then l.map Prod.fst else l.map Prod.fst ++ [key] := by
  induction l with
  | nil => simp [mapSet]
  | cons hd tl ih =>
    obtain ⟨k, v⟩ := hd
    unfold mapSet
    by_cases hk : k = key
    · simp [hk]
    · have hk2 : ¬ key = k := fun h => hk h.symm
      simp only [hk, if_false, List.map_cons, ih, List.mem_cons, hk2, false_or]
      split <;> simp

theorem length_mapSet_le (key : String) (value : JSNum) (l : List (String × JSNum)) :
    (mapSet key value l).length ≤ l.length + 1 := by
  have h := congrArg List.length (keys_mapSet key value l)
  simp only [List.length_map] at h
  rw [h]
  split <;> simp

theorem length_mapSet_of_mem (key : String) (value : JSNum) (l : List (String × JSNum))
    (hmem : key ∈ l.map Prod.fst) : (mapSet key value l).length = l.length := by
  have h := congrArg List.length (keys_mapSet key value l)
  simpa [hmem] using h

theorem mem_keys_mapSet (key : String) (value : JSNum) (l : List (String × JSNum)) :
    key ∈ (mapSet key value l).map Prod.fst := by
  rw [keys_mapSet]
  split
  · assumption
  · simp

theorem nodup_keys_mapSet (key : String) (value : JSNum) (l : List (String × JSNum))
    (h : (l.map Prod.fst).Nodup) : ((mapSet key value l).map Prod.fst).Nodup := by
  rw [keys_mapSet]
  split
  · exact h
  · rename_i hmem
    exact List.Nodup.append h (List.nodup_singleton _) (by simpa using hmem)

theorem filter_mapSet (key : String) (value : JSNum) (l : List (String × JSNum))
    (h : (l.map Prod.fst).Nodup) :
    (mapSet key value l).filter (fun e => e.1 = key) = [(key, value)] := by
  induction l with
  | nil => simp [mapSet]
  | cons hd tl ih =>
    obtain ⟨k, v⟩ := hd
    have hnd := List.nodup_cons.mp h
    unfold mapSet
    by_cases hk : k = key
    · subst hk
      have hnone : tl.filter (fun e => e.1 = k) = [] := by
        rw [List.filter_eq_nil_iff]
        intro e he hek
        have hek2 : e.1 = k := by simpa using hek
        have hmem : e.1 ∈ tl.map Prod.fst := List.mem_map_of_mem Prod.fst he
        rw [hek2] at hmem
        exact hnd.1 hmem
      simp [List.filter_cons, hnone]
    · simp [hk, List.filter_cons, ih hnd.2]

/-! ## The handler: lemmas -/

theorem forEach_append {α : Type} (f : State → α → Completion) (st : State) (xs ys : List α) :
    forEach f st (xs ++ ys) =
      match forEach f st xs with
      | .normal s => forEach f s ys
      | .thrown s => .thrown s := by
  induction xs generalizing st with
  | nil => rfl
  | cons x xs ih =>
    simp only [List.cons_append, forEach]
    cases f st x with
    | normal s => exact ih s
    | thrown s => rfl

/-- A loop whose callback is itself a loop over the items that `g` yields is the loop over
all of them. -/
theorem forEach_bind {α β : Type} (f : State → α → Completion) (g : α → List β)
    (h : State → β → Completion) (hfg : ∀ s x, f s x = forEach h s (g x)) (st : State)
    (xs : List α) : forEach f st xs = forEach h st (xs.flatMap g) := by
  induction xs generalizing st with
  | nil => rfl
  | cons x xs ih =>
    simp only [List.flatMap_cons, forEach, forEach_append, hfg]
    cases forEach h st (g x) with
    | normal s => exact ih s
    | thrown s => rfl

/-- A property of the state that every call of the callback preserves holds at the end of
the loop, however it completes. -/
theorem forEach_preserves {α : Type} (P : State → Prop) (f : State → α → Completion)
    (hf : ∀ s x, P s → P (f s x).state) (st : State) (xs : List α) (h : P st) :
    P (forEach f st xs).state := by
  induction xs generalizing st with
  | nil => exact h
  | cons x xs ih =>
    have hx := hf st x h
    unfold forEach
    cases hfx : f st x with
    | normal s =>
      rw [hfx] at hx
      exact ih s hx
    | thrown s =>
      rw [hfx] at hx
      exact hx

theorem tryExtractOi_isFinite {x : JSVal} {v : JSNum} (h : tryExtractOi x = some v) :
    v.isFinite = true := by
  unfold tryExtractOi at h
  split at h
  · exact absurd h (by simp)
  · simp only at h
    split at h
    · split at h
      · rename_i n _ hfin
        cases h
        exact hfin
      · exact absurd h (by simp)
    · exact absurd h (by simp)

/-- What `upsertMarket` does, by the outcome of the string conversion of the identifier. -/
theorem upsertMarket_cases (st : State) (now : Nat) (mid : JSVal) (oi : JSNum) :
    upsertMarket st now mid oi = .thrown st ∨ upsertMarket st now mid oi = .normal st ∨
      ∃ key, oi.isFinite = true ∧
        upsertMarket st now mid oi =
          .normal ⟨mapSet key oi st.marketIndexToOi, now, st.wsSamples⟩ := by
  unfold upsertMarket
  split
  · exact Or.inl rfl
  · split
    · rename_i key _ hfin
      exact Or.inr (Or.inr ⟨key, hfin, rfl⟩)
    · exact Or.inr (Or.inl rfl)

/-- A property of the state that survives every `Map.set` of a finite value, with any new
update time, survives `upsertMarket`. -/
theorem upsertMarket_preserves (P : State → Prop)
    (hP : ∀ (s : State) key v t, P s → v.isFinite = true →
      P ⟨mapSet key v s.marketIndexToOi, t, s.wsSamples⟩)
    (st : State) (now : Nat) (mid : JSVal) (oi : JSNum) (h : P st) :
    P (upsertMarket st now mid oi).state := by
  rcases upsertMarket_cases st now mid oi with hc | hc | ⟨key, hfin, hc⟩
  · rw [hc]; exact h
  · rw [hc]; exact h
  · rw [hc]; exact hP st key oi now h hfin

theorem upsertFrom_preserves (P : State → Prop)
    (hP : ∀ (s : State) key v t, P s → v.isFinite = true →
      P ⟨mapSet key v s.marketIndexToOi, t, s.wsSamples⟩)
    (now : Nat) (st : State) (x : JSVal) (h : P st) : P (upsertFrom now st x).state := by
  unfold upsertFrom
  split
  · exact upsertMarket_preserves P hP _ _ _ _ h
  · exact h

theorem upsertStat_preserves (P : State → Prop)
    (hP : ∀ (s : State) key v t, P s → v.isFinite = true →
      P ⟨mapSet key v s.marketIndexToOi, t, s.wsSamples⟩)
    (now : Nat) (stats : Json) (st : State) (k : String) (h : P st) :
    P (upsertStat now stats st k).state := by
  unfold upsertStat
  split
  · exact upsertMarket_preserves P hP _ _ _ _ h
  · exact h

theorem extractAndUpsert_preserves (P : State → Prop)
    (hP : ∀ (s : State) key v t, P s → v.isFinite = true →
      P ⟨mapSet key v s.marketIndexToOi, t, s.wsSamples⟩)
    (now : Nat) (st : State) (parsed : Json) (h : P st) :
    P (extractAndUpsert now st parsed).state := by
  unfold extractAndUpsert
  split
  · split
    · exact forEach_preserves P _ (fun s x hs => upsertFrom_preserves P hP now s _ hs) _ _ h
    · simp only
      split
      · split
        · exact forEach_preserves P _
            (fun s k hs => upsertStat_preserves P hP now _ s k hs) _ _ h
        · exact h
      · split
        · exact forEach_preserves P _ (fun s x hs => upsertFrom_preserves P hP now s _ hs) _ _ h
        · split
          · exact upsertFrom_preserves P hP now st _ h
          · split
            · exact upsertFrom_preserves P hP now st _ h
            · exact h
  · exact h

theorem upsertMarket_of_key {m : Json} {key : String} (st : State) (now : Nat) (v : JSNum)
    (hm : m ≠ .null) (hkey : toStr m = .ok key) (hfin : v.isFinite = true) :
    upsertMarket st now (some m) v =
      .normal ⟨mapSet key v st.marketIndexToOi, now, st.wsSamples⟩ := by
  have hn : nullish (some m) (some (.str "unknown")) = some m := by
    cases m <;> first | rfl | exact absurd rfl hm
  simp [upsertMarket, hn, stringOf, hkey, hfin]

theorem toStr_of_str_or_num {m : Json} (h : (∃ s, m = .str s) ∨ (∃ n, m = .num n)) :
    m ≠ .null ∧ ∃ key, toStr m = .ok key := by
  rcases h with ⟨s, rfl⟩ | ⟨n, rfl⟩
  · exact ⟨by simp, s, by simp [toStr]⟩
  · exact ⟨by simp, numberToString n, by simp [toStr]⟩

/-- The handler leaves a property of the state in place when every `Map.set` of a finite
value does and the property does not depend on the samples. -/
theorem onMessage_preserves (P : State → Prop)
    (hP : ∀ (s : State) key v t, P s → v.isFinite = true →
      P ⟨mapSet key v s.marketIndexToOi, t, s.wsSamples⟩)
    (hS : ∀ (s : State) samples, P s →
      P ⟨s.marketIndexToOi, s.lastExchangeOiUpdate, samples⟩)
    (stringify : Json → Option String) (st : State) (now : Nat) (message : Option Json) (h : P st) :
    P (onMessage stringify st now message) := by
  cases message with
  | none => exact h
  | some parsed =>
    refine extractAndUpsert_preserves P hP now _ parsed ?_
    unfold pushSample
    split
    · exact h
    · exact hS st _ h

theorem handleAll_preserves (P : State → Prop)
    (hP : ∀ (s : State) key v t, P s → v.isFinite = true →
      P ⟨mapSet key v s.marketIndexToOi, t, s.wsSamples⟩)
    (hS : ∀ (s : State) samples, P s →
      P ⟨s.marketIndexToOi, s.lastExchangeOiUpdate, samples⟩)
    (stringify : Json → Option String) (events : List (Nat × Option Json)) (st : State) (h : P st) :
    P (handleAll stringify events st) := by
  induction events generalizing st with
  | nil => exact h
  | cons e es ih =>
    exact ih _ (onMessage_preserves P hP hS stringify st e.1 e.2 h)

/-- The shape chain does not touch the samples. -/
theorem extractAndUpsert_wsSamples (now : Nat) (st : State) (parsed : Json) :
    (extractAndUpsert now st parsed).state.wsSamples = st.wsSamples :=
  extractAndUpsert_preserves (fun s => s.wsSamples = st.wsSamples)
    (fun _ _ _ _ h _ => h) now st parsed rfl

/-- With finite values only, the guarded sum of `getExchangeOiTotal` adds every value. -/
theorem foldl_guarded_eq (vs : List JSNum) (acc : JSNum)
    (h : ∀ v ∈ vs, v.isFinite = true) :
    vs.foldl (fun total value => if value.isFinite then total.add value.abs else total) acc =
      (vs.map JSNum.abs).foldl JSNum.add acc := by
  induction vs generalizing acc with
  | nil => rfl
  | cons v vs ih =>
    simp only [List.foldl_cons, List.map_cons, h v (List.mem_cons_self _ _), if_true]
    exact ih _ (fun w hw => h w (List.mem_cons_of_mem _ hw))

theorem foldl_guarded_isNonneg (vs : List JSNum) (acc : JSNum) (h : acc.isNonneg = true) :
    (vs.foldl (fun total value => if value.isFinite then total.add value.abs else total)
      acc).isNonneg = true := by
  induction vs generalizing acc with
  | nil => exact h
  | cons v vs ih =>
    simp only [List.foldl_cons]
    apply ih
    split
    · rename_i hfin
      exact JSNum.isNonneg_add_abs v h hfin
    · exact h

/-- Keeping the last `n` entries after every push keeps the last `n` entries overall. -/
theorem drop_length_sub_append {α : Type} (n : Nat) (A B : List α) :
    (A.drop (A.length - n) ++ B).drop ((A.drop (A.length - n) ++ B).length - n) =
      (A ++ B).drop ((A ++ B).length - n) := by
  by_cases h : A.length ≤ n
  · have h0 : A.length - n = 0 := by omega
    simp [h0]
  · have hlen : (A.drop (A.length - n)).length = n := by
      rw [List.length_drop]; omega
    have h1 : (A.drop (A.length - n) ++ B).length - n = B.length := by
      rw [List.length_append, hlen]; omega
    have h2 : (A ++ B).length - n = (A.length - n) + B.length := by
      rw [List.length_append]; omega
    rw [h1, h2, ← List.drop_drop, List.drop_append_of_le_length (Nat.sub_le _ _)]

theorem pushSample_marketIndexToOi (stringify : Json → Option String) (now : Nat)
    (st : State) (parsed : Json) :
    (pushSample stringify now st parsed).marketIndexToOi = st.marketIndexToOi := by
  unfold pushSample
  split <;> rfl

theorem pushSample_lastExchangeOiUpdate (stringify : Json → Option String) (now : Nat)
    (st : State) (parsed : Json) :
    (pushSample stringify now st parsed).lastExchangeOiUpdate = st.lastExchangeOiUpdate := by
  unfold pushSample
  split <;> rfl

/-- The samples after a parsed message whose serialisation throws. -/
theorem onMessage_wsSamples_of_throw (stringify : Json → Option String) (st : State)
    (now : Nat) (parsed : Json) (hs : stringify parsed = none) :
    (onMessage stringify st now (some parsed)).wsSamples = st.wsSamples := by
  show (extractAndUpsert now (pushSample stringify now st parsed) parsed).state.wsSamples = _
  rw [extractAndUpsert_wsSamples]
  simp [pushSample, hs]

/-- The samples after a parsed message that is serialised to `text`. -/
theorem onMessage_wsSamples (stringify : Json → Option String) (st : State) (now : Nat)
    (parsed : Json) (text : String) (hs : stringify parsed = some text)
    (h : st.wsSamples.length ≤ 6) :
    (onMessage stringify st now (some parsed)).wsSamples =
      (st.wsSamples ++ [sampleOf now text]).drop
        ((st.wsSamples ++ [sampleOf now text]).length - 6) := by
  show (extractAndUpsert now (pushSample stringify now st parsed) parsed).state.wsSamples = _
  rw [extractAndUpsert_wsSamples]
  simp only [pushSample, hs]
  split
  · rename_i hgt
    have hl : (st.wsSamples ++ [sampleOf now text]).length - 6 = 1 := by
      simp only [List.length_append, List.length_singleton] at hgt ⊢
      omega
    rw [hl, List.drop_one]
  · rename_i hgt
    have hl : (st.wsSamples ++ [sampleOf now text]).length - 6 = 0 := by
      simp only [List.length_append, List.length_singleton] at hgt ⊢
      omega
    rw [hl, List.drop_zero]

/-- The samples after a sequence of messages, from a buffer within capacity: the last six
of the old samples followed by those of the messages that were parsed and serialised. -/
theorem handleAll_wsSamples (stringify : Json → Option String)
    (events : List (Nat × Option Json)) (st : State) (h : st.wsSamples.length ≤ 6) :
    (handleAll stringify events st).wsSamples =
      (st.wsSamples ++
        events.filterMap fun e => (e.2.bind stringify).map (sampleOf e.1)).drop
        ((st.wsSamples ++
          events.filterMap fun e => (e.2.bind stringify).map (sampleOf e.1)).length - 6) := by
  induction events generalizing st with
  | nil =>
    have h0 : st.wsSamples.length - 6 = 0 := by omega
    simp [handleAll, h0]
  | cons e es ih =>
    obtain ⟨now, message⟩ := e
    show (handleAll stringify es (onMessage stringify st now message)).wsSamples = _
    cases message with
    | none =>
      rw [ih _ (by simpa [onMessage] using h)]
      simp [onMessage]
    | some parsed =>
      cases hs : stringify parsed with
      | none =>
        have hw := onMessage_wsSamples_of_throw stringify st now parsed hs
        rw [ih _ (by rw [hw]; exact h), hw]
        simp [List.filterMap_cons, hs]
      | some text =>
        have hw := onMessage_wsSamples stringify st now parsed text hs h
        have hlen : (onMessage stringify st now (some parsed)).wsSamples.length ≤ 6 := by
          rw [hw, List.length_drop]
          omega
        rw [ih _ hlen, hw, drop_length_sub_append]
        simp [List.filterMap_cons, hs, List.append_assoc]

theorem nestingDepth_nested (n : Nat) (v : Json) :
    nestingDepth (nested n v) = n + nestingDepth v := by
  induction n with
  | zero => simp [nested]
  | succ n ih =>
    simp only [nested, nestingDepth, nestingDepthItems, ih]
    omega

theorem stringifyWithin_nested (capacity n : Nat) (h : capacity < n) :
    stringifyWithin capacity (nested n .null) = none := by
  unfold stringifyWithin
  rw [nestingDepth_nested, if_neg (by omega)]

/-- A single parsed message on which the serialiser throws leaves the buffer empty. -/
theorem handleAll_of_throw (stringify : Json → Option String) (now : Nat) (parsed : Json)
    (hs : stringify parsed = none) :
    ([(now, some parsed)].filterMap Prod.snd).length = 1 ∧
    (handleAll stringify [(now, some parsed)] State.init).wsSamples = [] ∧
    (handleAll stringify [(now, some parsed)] State.init).wsSamples.length ≠
      min ([(now, some parsed)].filterMap Prod.snd).length 6 := by
  have hempty : (handleAll stringify [(now, some parsed)] State.init).wsSamples = [] := by
    simp only [handleAll, List.foldl_cons, List.foldl_nil]
    rw [onMessage_wsSamples_of_throw _ _ _ _ hs]
    rfl
  have hcount : ([(now, some parsed)].filterMap Prod.snd).length = 1 := by
    simp only [List.filterMap_cons, List.filterMap_nil, List.length_singleton]
  refine ⟨hcount, hempty, ?_⟩
  rw [hempty, hcount]
  decide

/-! ## The shape chain: lemmas -/

theorem tryExtractOi_of_open_interest (kvs : List (String × Json)) (x : Json) (v : JSNum)
    (hl : kvs.lookup "open_interest" = some x)
    (hx : x = .num v ∨ ∃ s, x = .str s ∧ stringToNumber s = v) (hv : v.isFinite = true) :
    tryExtractOi (some (.obj kvs)) = some v := by
  rcases hx with rfl | ⟨s, rfl, rfl⟩
  · simp [tryExtractOi, truthy, typeOf, optProp, Json.get, hl, nullish, hv]
  · simp [tryExtractOi, truthy, typeOf, optProp, Json.get, hl, nullish, hv]

theorem marketIdOf_of_market_id (kvs : List (String × Json)) (m : Json)
    (hl : kvs.lookup "market_id" = some m) (hm : m ≠ .null) :
    marketIdOf (some (.obj kvs)) = some m := by
  cases m <;> first
    | exact absurd rfl hm
    | simp [marketIdOf, optProp, Json.get, hl, nullish]

theorem upsertFrom_of_fields (now : Nat) (st : State) (kvs : List (String × Json))
    (m x : Json) (v : JSNum) (key : String)
    (hlm : kvs.lookup "market_id" = some m) (hlx : kvs.lookup "open_interest" = some x)
    (hm : m ≠ .null) (hkey : toStr m = .ok key)
    (hx : x = .num v ∨ ∃ s, x = .str s ∧ stringToNumber s = v) (hv : v.isFinite = true) :
    upsertFrom now st (some (.obj kvs)) =
      .normal ⟨mapSet key v st.marketIndexToOi, now, st.wsSamples⟩ := by
  unfold upsertFrom
  rw [tryExtractOi_of_open_interest kvs x v hlx hx hv, marketIdOf_of_market_id kvs m hlm hm]
  exact upsertMarket_of_key st now v hm hkey hv

/-! ## The position aggregator: contract -/

/-- C1: for a response whose `accounts` field is a non-empty list, the aggregator reads
the positions of the first account only (a `positions` field that is absent or not a list
counts as empty, the other accounts are ignored); the accepted values are the coerced
position values that are finite, `total` is their sum in input order, `openInterest` the sum
of their absolute values, `count` their number.  The positions `"100.5"`, `-50`, `"abc"`
give total `50.5`, count `2`, open interest `150.5`. -/
theorem sum_is_over_first_account :
    (∀ (fields : List (String × Json)) (account : Json) (others : List Json),
      fields.lookup "accounts" = some (.arr (account :: others)) →
      sumPositionValuesFromApiResponse (some (.obj fields)) =
        .ok
          (let positions : List Json :=
            match optProp (some account) "positions" with
            | some (.arr ps) => ps
            | _ => []
          let accepted : List JSNum :=
            (positions.map fun p =>
              coercePositionValue (optProp (some p) "position_value")).filter JSNum.isFinite
          ⟨accepted.foldl JSNum.add (.fin 0), accepted.length,
            (accepted.map JSNum.abs).foldl JSNum.add (.fin 0)⟩)) ∧
    sumPositionValuesFromApiResponse
        (some (.obj [("accounts", .arr [.obj [("positions", .arr
          [.obj [("position_value", .str "100.5")],
            .obj [("position_value", .num (.fin (-50)))],
            .obj [("position_value", .str "abc")]])]])])) =
      .ok ⟨.fin (101 / 2), 2, .fin (301 / 2)⟩ := by
  constructor
  · intro fields account others h
    rw [sum_of_accounts fields account others h, foldl_accumulatePosition]
    have harr : arrayOrEmpty (optProp (some account) "positions") =
        (match optProp (some account) "positions" with
          | some (.arr ps) => ps
          | _ => []) := by
      unfold arrayOrEmpty
      split <;> simp_all
    simp [harr, PositionSummary.zero]
  · with_unfolding_all rfl

/-- C1 at a response with two accounts: only the positions of the first are summed. -/
theorem sum_is_over_first_account_witness :
    sumPositionValuesFromApiResponse
        (some (.obj [("accounts", .arr
          [.obj [("positions", .arr [.obj [("position_value", .num (.fin 2))]])],
            .obj [("positions", .arr [.obj [("position_value", .num (.fin 40))]])]])])) =
      .ok ⟨.fin 2, 1, .fin 2⟩ := by
  have h := sum_is_over_first_account.1
    [("accounts", .arr
      [.obj [("positions", .arr [.obj [("position_value", .num (.fin 2))]])],
        .obj [("positions", .arr [.obj [("position_value", .num (.fin 40))]])]])]
    (.obj [("positions", .arr [.obj [("position_value", .num (.fin 2))]])])
    [.obj [("positions", .arr [.obj [("position_value", .num (.fin 40))]])]] rfl
  rw [h]
  with_unfolding_all rfl

/-- C2: a response that is `undefined` or `null`, that has no `accounts` field, whose
`accounts` is not a list, or whose `accounts` is the empty list gives the zero summary, and
the aggregator raises no error on any input. -/
theorem sum_zero_and_total :
    (∀ api : JSVal,
      (api = none ∨ api = some .null ∨
        (∃ j, api = some j ∧ j.get "accounts" = none) ∨
        (∃ j a, api = some j ∧ j.get "accounts" = some a ∧ ∀ xs, a ≠ .arr xs) ∨
        (∃ j, api = some j ∧ j.get "accounts" = some (.arr []))) →
      sumPositionValuesFromApiResponse api = .ok ⟨.fin 0, 0, .fin 0⟩) ∧
    (∀ api : JSVal, ∃ r, sumPositionValuesFromApiResponse api = .ok r) := by
  constructor
  · intro api h
    rcases h with h | h | ⟨j, hj, hget⟩ | ⟨j, a, hj, hget, hnot⟩ | ⟨j, hj, hget⟩
    · subst h; rfl
    · subst h; rfl
    · subst hj
      rw [sum_some, hget]
      rfl
    · subst hj
      rw [sum_some, hget]
      cases a with
      | arr xs => exact absurd rfl (hnot xs)
      | null => rfl
      | bool b => rfl
      | num n => rfl
      | str s => rfl
      | obj kvs => rfl
    · subst hj
      rw [sum_some, hget]
      simp only [List.head?_nil]
      split <;> rfl
  · intro api
    cases api with
    | none => exact ⟨_, rfl⟩
    | some j => exact ⟨_, sum_some j⟩

/-- C2 at the response `{}` and at the response `{accounts: []}`. -/
theorem sum_zero_and_total_witness :
    sumPositionValuesFromApiResponse (some (.obj [])) = .ok ⟨.fin 0, 0, .fin 0⟩ ∧
    sumPositionValuesFromApiResponse (some (.obj [("accounts", .arr [])])) =
      .ok ⟨.fin 0, 0, .fin 0⟩ :=
  ⟨sum_zero_and_total.1 (some (.obj [])) (Or.inr (Or.inr (Or.inl ⟨.obj [], rfl, rfl⟩))),
    sum_zero_and_total.1 (some (.obj [("accounts", .arr [])]))
      (Or.inr (Or.inr (Or.inr (Or.inr ⟨.obj [("accounts", .arr [])], rfl, rfl⟩))))⟩

/-- One step of the loop at a position whose `position_value` is neither a string nor a
number, from accumulators in range: only the count changes. -/
theorem accumulatePosition_of_not_str_num (acc : PositionSummary) (p : Json)
    (hs : ∀ s, optProp (some p) "position_value" ≠ some (.str s))
    (hn : ∀ n, optProp (some p) "position_value" ≠ some (.num n))
    (ht : acc.total.InRange) (ho : acc.openInterest.InRange) :
    accumulatePosition acc p = ⟨acc.total, acc.count + 1, acc.openInterest⟩ := by
  unfold accumulatePosition
  simp only [coerce_of_not_str_num _ hs hn, JSNum.isFinite, if_true]
  have habs : (JSNum.fin 0).abs = JSNum.fin 0 := by simp [JSNum.abs]
  rw [habs, JSNum.add_zero_of_inRange ht, JSNum.add_zero_of_inRange ho]

/-- C10: a position whose `position_value` is neither a string nor a number (absent,
`null`, a boolean, an object, or the position itself `null`) is coerced to `0` and accepted:
inserting it anywhere among the positions raises `count` by one and leaves `total` and
`openInterest` as they were, so `count` can exceed the number of positions that carry a
numeric value, as for the single position `null`. -/
theorem non_numeric_position_is_counted :
    (∀ (before after : List Json) (p : Json),
      (∀ s, optProp (some p) "position_value" ≠ some (.str s)) →
      (∀ n, optProp (some p) "position_value" ≠ some (.num n)) →
      ∃ r,
        sumPositionValuesFromApiResponse
          (some (.obj [("accounts", .arr [.obj [("positions", .arr (before ++ after))]])])) =
            .ok r ∧
        sumPositionValuesFromApiResponse
          (some (.obj [("accounts", .arr [.obj [("positions", .arr (before ++ p :: after))]])])) =
            .ok ⟨r.total, r.count + 1, r.openInterest⟩) ∧
    sumPositionValuesFromApiResponse
        (some (.obj [("accounts", .arr [.obj [("positions", .arr [.null])]])])) =
      .ok ⟨.fin 0, 1, .fin 0⟩ := by
  constructor
  · intro before after p hs hn
    have hsum : ∀ ps : List Json,
        sumPositionValuesFromApiResponse
          (some (.obj [("accounts", .arr [.obj [("positions", .arr ps)]])])) =
          .ok ((arrayOrEmpty (optProp (some (.obj [("positions", .arr ps)])) "positions")).foldl
            accumulatePosition PositionSummary.zero) :=
      fun ps => sum_of_accounts [("accounts", .arr [.obj [("positions", .arr ps)]])]
        (.obj [("positions", .arr ps)]) [] rfl
    refine ⟨_, hsum _, ?_⟩
    rw [hsum]
    have h1 : ∀ ps : List Json,
        arrayOrEmpty (optProp (some (.obj [("positions", .arr ps)])) "positions") = ps := by
      intro ps
      simp [optProp, Json.get, arrayOrEmpty, List.lookup]
    rw [h1, h1, List.foldl_append, List.foldl_append, List.foldl_cons]
    have hr := inRange_foldl_accumulatePosition before PositionSummary.zero
      JSNum.inRange_zero JSNum.inRange_zero
    rw [accumulatePosition_of_not_str_num _ p hs hn hr.1 hr.2,
      foldl_accumulatePosition_count after _ 1]
  · with_unfolding_all rfl

/-- C10 at the positions `5`, `{}`, `"2"`: the empty object is counted with value `0`. -/
theorem non_numeric_position_is_counted_witness :
    ∃ r,
      sumPositionValuesFromApiResponse
        (some (.obj [("accounts", .arr [.obj [("positions", .arr
          ([.obj [("position_value", .num (.fin 5))]] ++
            [.obj [("position_value", .str "2")]]))]])])) = .ok r ∧
      sumPositionValuesFromApiResponse
        (some (.obj [("accounts", .arr [.obj [("positions", .arr
          ([.obj [("position_value", .num (.fin 5))]] ++
            .obj [] :: [.obj [("position_value", .str "2")]]))]])])) =
        .ok ⟨r.total, r.count + 1, r.openInterest⟩ :=
  non_numeric_position_is_counted.1 [.obj [("position_value", .num (.fin 5))]]
    [.obj [("position_value", .str "2")]] (.obj [])
    (by intro s h; simp [optProp, Json.get] at h)
    (by intro n h; simp [optProp, Json.get] at h)

/-! ## The store: contract -/

/-- C3: upsert is last-write-wins per stringified market key.  For every store (a `Map`,
so without repeated keys), every market identifier `m` (a string or a number) and finite
values `a` and `b`, `upsertMarket(m, a)` followed by `upsertMarket(m, b)` completes and
leaves exactly one entry for `String(m)`, with value `b`, and at most one key more than
before; the number `3` and the string `"3"` have the same key; from the empty store,
upserting `10` then `25` for `"3"` gives size `1` and `getExchangeOiTotal() = 25`. -/
theorem upsert_last_write_wins :
    (∀ (st : State) (t1 t2 : Nat) (m : Json) (a b : JSNum),
      ((∃ s, m = .str s) ∨ (∃ n, m = .num n)) →
      a.isFinite = true → b.isFinite = true →
      (st.marketIndexToOi.map Prod.fst).Nodup →
      ∃ key st1 st2, toStr m = .ok key ∧
        upsertMarket st t1 (some m) a = .normal st1 ∧
        upsertMarket st1 t2 (some m) b = .normal st2 ∧
        st2.marketIndexToOi.filter (fun e => e.1 = key) = [(key, b)] ∧
        st2.marketIndexToOi.length ≤ st.marketIndexToOi.length + 1) ∧
    toStr (.num (.fin 3)) = toStr (.str "3") ∧
    (∃ st1 st2,
      upsertMarket State.init 1 (some (.str "3")) (.fin 10) = .normal st1 ∧
      upsertMarket st1 2 (some (.str "3")) (.fin 25) = .normal st2 ∧
      st2.marketIndexToOi.length = 1 ∧ getExchangeOiTotal st2 = .fin 25) := by
  refine ⟨?_, ?_, ?_⟩
  · intro st t1 t2 m a b hm ha hb hnd
    obtain ⟨hnull, key, hkey⟩ := toStr_of_str_or_num hm
    refine ⟨key, _, _, hkey, upsertMarket_of_key st t1 a hnull hkey ha,
      upsertMarket_of_key _ t2 b hnull hkey hb, ?_, ?_⟩
    · exact filter_mapSet key b _ (nodup_keys_mapSet key a _ hnd)
    · show (mapSet key b (mapSet key a st.marketIndexToOi)).length ≤ _
      rw [length_mapSet_of_mem key b _ (mem_keys_mapSet key a _)]
      exact length_mapSet_le key a _
  · with_unfolding_all rfl
  · have hkey : toStr (.str "3") = .ok "3" := by simp [toStr]
    refine ⟨_, _, upsertMarket_of_key State.init 1 (.fin 10) (by simp) hkey rfl,
      upsertMarket_of_key _ 2 (.fin 25) (by simp) hkey rfl, ?_, ?_⟩
    · rfl
    · with_unfolding_all rfl

/-- C3 at the store holding `"7" ↦ 1`, for the identifier `7` and the values `2`, `4`. -/
theorem upsert_last_write_wins_witness :
    ∃ key st1 st2, toStr (.num (.fin 7)) = .ok key ∧
      upsertMarket ⟨[("7", .fin 1)], 0, []⟩ 1 (some (.num (.fin 7))) (.fin 2) = .normal st1 ∧
      upsertMarket st1 2 (some (.num (.fin 7))) (.fin 4) = .normal st2 ∧
      st2.marketIndexToOi.filter (fun e => e.1 = key) = [(key, .fin 4)] ∧
      st2.marketIndexToOi.length ≤ [("7", JSNum.fin 1)].length + 1 :=
  upsert_last_write_wins.1 ⟨[("7", .fin 1)], 0, []⟩ 1 2 (.num (.fin 7)) (.fin 2) (.fin 4)
    (Or.inr ⟨_, rfl⟩) rfl rfl (by simp)

/-- C4: in every state reached from the initial one by handling a sequence of inbound
messages, every value of `marketIndexToOi` is finite, so `getExchangeOiTotal()` is the sum
of the absolute values of all stored values, and it is non-negative. -/
theorem stored_values_are_finite (stringify : Json → Option String)
    (events : List (Nat × Option Json)) :
    (∀ e ∈ (handleAll stringify events State.init).marketIndexToOi, e.2.isFinite = true) ∧
    getExchangeOiTotal (handleAll stringify events State.init) =
      (((handleAll stringify events State.init).marketIndexToOi.map Prod.snd).map
        JSNum.abs).foldl JSNum.add (.fin 0) ∧
    (getExchangeOiTotal (handleAll stringify events State.init)).isNonneg = true := by
  have hfin : ∀ e ∈ (handleAll stringify events State.init).marketIndexToOi,
      e.2.isFinite = true := by
    refine handleAll_preserves (fun s => ∀ e ∈ s.marketIndexToOi, e.2.isFinite = true)
      ?_ (fun _ _ h => h) stringify events State.init ?_
    · intro s key v t hs hv e he
      rcases mem_mapSet he with h | h
      · rw [h]; exact hv
      · exact hs e h
    · intro e he
      simp [State.init] at he
  refine ⟨hfin, ?_, ?_⟩
  · apply foldl_guarded_eq
    intro v hv
    obtain ⟨e, he, rfl⟩ := List.mem_map.mp hv
    exact hfin e he
  · exact foldl_guarded_isNonneg _ _ (by simp [JSNum.isNonneg])

/-- The claim C5 as stated fails at a message that `JSON.parse` accepts and
`JSON.stringify` cannot serialise: with a serialiser whose stack holds 9999 levels of
nesting, the message `null` nested in 10000 arrays is parsed, the serialiser throws inside
the inner `try`, and the buffer stays empty although one message was successfully parsed. -/
theorem unserialisable_message_leaves_no_sample :
    stringifyWithin 9999 (nested 10000 .null) = none ∧
    ([(1, some (nested 10000 Json.null))].filterMap Prod.snd).length = 1 ∧
    (handleAll (stringifyWithin 9999) [(1, some (nested 10000 .null))] State.init).wsSamples =
      [] ∧
    (handleAll (stringifyWithin 9999)
        [(1, some (nested 10000 .null))] State.init).wsSamples.length ≠
      min ([(1, some (nested 10000 Json.null))].filterMap Prod.snd).length 6 := by
  exact ⟨stringifyWithin_nested 9999 10000 (by decide),
    handleAll_of_throw (stringifyWithin 9999) 1 (nested 10000 .null)
      (stringifyWithin_nested 9999 10000 (by decide))⟩

/-- C5, amended: the sample buffer is a first-in first-out buffer of capacity six of the
messages that were parsed and serialised; a parsed message on which `JSON.stringify`
throws records no sample.  After any sequence of inbound messages from the initial state,
`wsSamples` holds the samples of the last `min(n, 6)` of the `n` messages that were parsed
and serialised, in arrival order, so at most six; after seven such messages it holds the
samples of the second to the seventh, and the sample of the first, when it differs from
those, is absent. -/
theorem samples_are_last_six (stringify : Json → Option String) :
    (∀ events : List (Nat × Option Json),
      (handleAll stringify events State.init).wsSamples =
        (events.filterMap fun e => (e.2.bind stringify).map (sampleOf e.1)).drop
          ((events.filterMap fun e => (e.2.bind stringify).map (sampleOf e.1)).length - 6) ∧
      (handleAll stringify events State.init).wsSamples.length =
        min (events.filterMap fun e => (e.2.bind stringify).map (sampleOf e.1)).length 6 ∧
      (handleAll stringify events State.init).wsSamples.length ≤ 6) ∧
    (∀ (t1 t2 t3 t4 t5 t6 t7 : Nat) (m1 m2 m3 m4 m5 m6 m7 : Json)
      (x1 x2 x3 x4 x5 x6 x7 : String),
      stringify m1 = some x1 → stringify m2 = some x2 → stringify m3 = some x3 →
      stringify m4 = some x4 → stringify m5 = some x5 → stringify m6 = some x6 →
      stringify m7 = some x7 →
      (handleAll stringify
        [(t1, some m1), (t2, some m2), (t3, some m3), (t4, some m4), (t5, some m5),
          (t6, some m6), (t7, some m7)] State.init).wsSamples =
        [sampleOf t2 x2, sampleOf t3 x3, sampleOf t4 x4, sampleOf t5 x5, sampleOf t6 x6,
          sampleOf t7 x7] ∧
      (sampleOf t1 x1 ∉
          [sampleOf t2 x2, sampleOf t3 x3, sampleOf t4 x4, sampleOf t5 x5, sampleOf t6 x6,
            sampleOf t7 x7] →
        sampleOf t1 x1 ∉
          (handleAll stringify
            [(t1, some m1), (t2, some m2), (t3, some m3), (t4, some m4), (t5, some m5),
              (t6, some m6), (t7, some m7)] State.init).wsSamples)) := by
  have hgen : ∀ events : List (Nat × Option Json),
      (handleAll stringify events State.init).wsSamples =
        (events.filterMap fun e => (e.2.bind stringify).map (sampleOf e.1)).drop
          ((events.filterMap fun e => (e.2.bind stringify).map (sampleOf e.1)).length - 6) := by
    intro events
    have h := handleAll_wsSamples stringify events State.init (by simp [State.init])
    simpa [State.init] using h
  refine ⟨fun events => ⟨hgen events, ?_, ?_⟩, ?_⟩
  · rw [hgen, List.length_drop]; omega
  · rw [hgen, List.length_drop]; omega
  · intro t1 t2 t3 t4 t5 t6 t7 m1 m2 m3 m4 m5 m6 m7 x1 x2 x3 x4 x5 x6 x7 h1 h2 h3 h4 h5 h6 h7
    have heq : (handleAll stringify
        [(t1, some m1), (t2, some m2), (t3, some m3), (t4, some m4), (t5, some m5),
          (t6, some m6), (t7, some m7)] State.init).wsSamples =
        [sampleOf t2 x2, sampleOf t3 x3, sampleOf t4 x4, sampleOf t5 x5, sampleOf t6 x6,
          sampleOf t7 x7] := by
      rw [hgen]
      simp [List.filterMap_cons, h1, h2, h3, h4, h5, h6, h7]
    exact ⟨heq, fun h => heq ▸ h⟩

/-- C5 amended, at seven messages `null` arriving at times one to seven. -/
theorem samples_are_last_six_witness :
    sampleOf 1 "null" ∉
      (handleAll (stringifyWithin 1000)
        [(1, some .null), (2, some .null), (3, some .null), (4, some .null), (5, some .null),
          (6, some .null), (7, some .null)] State.init).wsSamples :=
  ((samples_are_last_six (stringifyWithin 1000)).2 1 2 3 4 5 6 7
    .null .null .null .null .null .null .null
    "null" "null" "null" "null" "null" "null" "null" rfl rfl rfl rfl rfl rfl rfl).2 (by decide)

/-! ## The message handler: contract -/

/-- C6: each of the five message shapes yields the expected upsert.  For every market
identifier `m` (a string or a number) and every open-interest value `x` that is a finite
number or a string that `Number` converts to one, handling any of the messages
`[{market_id: m, open_interest: x}]`, `{stats: {[String(m)]: {open_interest: x}}}`,
`{market_stats: [{market_id: m, open_interest: x}]}`,
`{type: "update/market_stats", market_id: m, open_interest: x}` and
`{channel: "market_stats", data: {market_id: m, open_interest: x}}` leaves the store
mapping `String(m)` to the number `x`. -/
theorem five_shapes_upsert (stringify : Json → Option String) (st : State) (now : Nat) (m x : Json)
    (v : JSNum) (hm : (∃ s, m = .str s) ∨ (∃ n, m = .num n))
    (hx : x = .num v ∨ ∃ s, x = .str s ∧ stringToNumber s = v) (hv : v.isFinite = true) :
    ∃ key, toStr m = .ok key ∧
      (onMessage stringify st now
        (some (.arr [.obj [("market_id", m), ("open_interest", x)]]))).marketIndexToOi.lookup
          key = some v ∧
      (onMessage stringify st now
        (some (.obj [("stats", .obj [(key, .obj [("open_interest", x)])])]))).marketIndexToOi.lookup
          key = some v ∧
      (onMessage stringify st now
        (some (.obj [("market_stats",
          .arr [.obj [("market_id", m), ("open_interest", x)]])]))).marketIndexToOi.lookup
          key = some v ∧
      (onMessage stringify st now
        (some (.obj [("type", .str "update/market_stats"), ("market_id", m),
          ("open_interest", x)]))).marketIndexToOi.lookup key = some v ∧
      (onMessage stringify st now
        (some (.obj [("channel", .str "market_stats"),
          ("data", .obj [("market_id", m), ("open_interest", x)])]))).marketIndexToOi.lookup
          key = some v := by
  obtain ⟨hnull, key, hkey⟩ := toStr_of_str_or_num hm
  have hitem : ∀ s : State,
      upsertFrom now s (some (.obj [("market_id", m), ("open_interest", x)])) =
        .normal ⟨mapSet key v s.marketIndexToOi, now, s.wsSamples⟩ :=
    fun s => upsertFrom_of_fields now s _ m x v key rfl rfl hnull hkey hx hv
  refine ⟨key, hkey, ?_, ?_, ?_, ?_, ?_⟩
  · simp [onMessage, extractAndUpsert, truthy, typeOf, forEach, hitem, Completion.state,
      lookup_mapSet_self]
  · have hoi : tryExtractOi (some (.obj [("open_interest", x)])) = some v :=
      tryExtractOi_of_open_interest _ x v rfl hx hv
    have hk : toStr (.str key) = .ok key := by simp [toStr]
    simp [onMessage, extractAndUpsert, truthy, typeOf, forEach, Json.get, objectKeys,
      upsertStat, hoi, upsertMarket_of_key _ now v (by simp) hk hv, Completion.state,
      lookup_mapSet_self, List.lookup]
  · simp [onMessage, extractAndUpsert, truthy, typeOf, forEach, hitem, Completion.state,
      lookup_mapSet_self, Json.get, List.lookup, isArray, arrayOrEmpty]
  · have hmsg : ∀ s : State,
        upsertFrom now s (some (.obj [("type", .str "update/market_stats"), ("market_id", m),
          ("open_interest", x)])) =
          .normal ⟨mapSet key v s.marketIndexToOi, now, s.wsSamples⟩ :=
      fun s => upsertFrom_of_fields now s _ m x v key rfl rfl hnull hkey hx hv
    have hinc : jsIncludes "update/market_stats" "market_stats" = true := by decide
    simp [onMessage, extractAndUpsert, truthy, typeOf, hmsg, Completion.state,
      lookup_mapSet_self, Json.get, List.lookup, isArray, stringWith, hinc]
  · have hst : jsStartsWith "market_stats" "market_stats" = true := by decide
    simp [onMessage, extractAndUpsert, truthy, typeOf, hitem, Completion.state,
      lookup_mapSet_self, Json.get, List.lookup, isArray, stringWith, hst, nullish]

/-- C6 at the identifier `3` and the open interest `"12.5"`. -/
theorem five_shapes_upsert_witness :
    ∃ key, toStr (.num (.fin 3)) = .ok key ∧
      (onMessage (stringifyWithin 1000) State.init 1
        (some (.arr [.obj [("market_id", .num (.fin 3)),
          ("open_interest", .str "12.5")]]))).marketIndexToOi.lookup key =
        some (.fin (25 / 2)) := by
  obtain ⟨key, hkey, h1, _⟩ := five_shapes_upsert (stringifyWithin 1000) State.init 1 (.num (.fin 3))
    (.str "12.5") (.fin (25 / 2)) (Or.inr ⟨_, rfl⟩)
    (Or.inr ⟨"12.5", rfl, by with_unfolding_all rfl⟩) rfl
  exact ⟨key, hkey, h1⟩

theorem object_test_false (v : JSVal) (h1 : ∀ kvs, v ≠ some (.obj kvs))
    (h2 : ∀ xs, v ≠ some (.arr xs)) :
    (truthy v && decide (typeOf v = .object)) = false := by
  cases v with
  | none => rfl
  | some j =>
    cases j with
    | null => rfl
    | bool b => simp [typeOf]
    | num n => simp [typeOf]
    | str s => simp [typeOf]
    | arr xs => exact absurd rfl (h2 xs)
    | obj kvs => exact absurd rfl (h1 kvs)

theorem array_test_false (v : JSVal) (h : ∀ xs, v ≠ some (.arr xs)) :
    (truthy v && isArray v) = false := by
  cases v with
  | none => rfl
  | some j =>
    cases j with
    | arr xs => exact absurd rfl (h xs)
    | null => rfl
    | bool b => simp [isArray]
    | num n => simp [isArray]
    | str s => simp [isArray]
    | obj kvs => simp [isArray]

theorem stringWith_false (v : JSVal) (test : String → Bool)
    (h : ∀ s, v = some (.str s) → test s = false) : stringWith v test = false := by
  unfold stringWith
  split
  · rename_i s
    simp [h s rfl]
  · rfl

/-- C7: a message that is not valid JSON leaves the whole state, samples included,
unchanged; a parsed message that matches none of the five shapes (it is not a list, its
`stats` is not an object in the sense of `typeof`, which includes lists, its `market_stats`
is not a list, its `type` is not a string containing `market_stats`, its `channel` is not a
string starting with `market_stats`) completes the shape chain without an exception and
leaves `marketIndexToOi` and `lastExchangeOiUpdate` unchanged. -/
theorem unmatched_message_is_dropped (stringify : Json → Option String) (st : State) (now : Nat) :
    onMessage stringify st now none = st ∧
    ∀ parsed : Json,
      (∀ xs, parsed ≠ .arr xs) →
      (∀ kvs, parsed.get "stats" ≠ some (.obj kvs)) →
      (∀ xs, parsed.get "stats" ≠ some (.arr xs)) →
      (∀ xs, parsed.get "market_stats" ≠ some (.arr xs)) →
      (∀ s, parsed.get "type" = some (.str s) → jsIncludes s "market_stats" = false) →
      (∀ s, parsed.get "channel" = some (.str s) → jsStartsWith s "market_stats" = false) →
      extractAndUpsert now (pushSample stringify now st parsed) parsed =
        .normal (pushSample stringify now st parsed) ∧
      (onMessage stringify st now (some parsed)).marketIndexToOi = st.marketIndexToOi ∧
      (onMessage stringify st now (some parsed)).lastExchangeOiUpdate =
        st.lastExchangeOiUpdate := by
  refine ⟨rfl, ?_⟩
  intro parsed hlist hstatsObj hstatsArr hms htype hchannel
  have hchain : ∀ s : State, extractAndUpsert now s parsed = .normal s := by
    intro s
    unfold extractAndUpsert
    split
    · split
      · exact absurd rfl (hlist _)
      · simp only [object_test_false _ hstatsObj hstatsArr, array_test_false _ hms,
          stringWith_false _ _ htype, stringWith_false _ _ hchannel]
        simp
    · rfl
  refine ⟨hchain _, ?_, ?_⟩
  · simp [onMessage, hchain, Completion.state, pushSample_marketIndexToOi]
  · simp [onMessage, hchain, Completion.state, pushSample_lastExchangeOiUpdate]

/-- C7 at the message `{"event": "ping"}`. -/
theorem unmatched_message_is_dropped_witness :
    (onMessage (stringifyWithin 1000) ⟨[("1", .fin 5)], 3, []⟩ 9
      (some (.obj [("event", .str "ping")]))).marketIndexToOi = [("1", .fin 5)] ∧
    (onMessage (stringifyWithin 1000) ⟨[("1", .fin 5)], 3, []⟩ 9
      (some (.obj [("event", .str "ping")]))).lastExchangeOiUpdate = 3 :=
  ((unmatched_message_is_dropped (stringifyWithin 1000) ⟨[("1", .fin 5)], 3, []⟩ 9).2
    (.obj [("event", .str "ping")])
    (by intro xs h; cases h)
    (by intro kvs h; simp [Json.get, List.lookup] at h)
    (by intro xs h; simp [Json.get, List.lookup] at h)
    (by intro xs h; simp [Json.get, List.lookup] at h)
    (by intro s h; simp [Json.get, List.lookup] at h)
    (by intro s h; simp [Json.get, List.lookup] at h)).2

theorem forEach_singleton {α : Type} (f : State → α → Completion) (st : State) (x : α) :
    forEach f st [x] = f st x := by
  simp only [forEach]
  cases f st x <;> rfl

theorem upsertFrom_eq_upsertAll (now : Nat) (st : State) (x : JSVal) :
    upsertFrom now st x = upsertAll now st (pairOf x) := by
  unfold upsertFrom pairOf upsertAll
  split
  · rw [forEach_singleton]
  · rfl

theorem upsertStat_eq_upsertAll (now : Nat) (stats : Json) (st : State) (k : String) :
    upsertStat now stats st k =
      upsertAll now st
        (match tryExtractOi (stats.get k) with
          | some oi => [(Json.str k, oi)]
          | none => []) := by
  unfold upsertStat upsertAll
  split
  · rw [forEach_singleton]
  · rfl

/-- The claim C8 as the design notes state it fails at the message
`{stats: {}, market_stats: [{market_id: 1, oi: 5}]}`: the handler takes the `stats` branch,
which yields nothing, and stops, while the first non-empty matcher result is the pair of
the `market_stats` matcher. -/
theorem first_non_empty_differs :
    extractAndUpsert 1 State.init
        (.obj [("stats", .obj []),
          ("market_stats", .arr [.obj [("market_id", .num (.fin 1)), ("oi", .num (.fin 5))]])]) =
      .normal State.init ∧
    upsertAll 1 State.init
        (specFirstNonEmpty matchers
          (.obj [("stats", .obj []),
            ("market_stats",
              .arr [.obj [("market_id", .num (.fin 1)), ("oi", .num (.fin 5))]])])) =
      .normal ⟨[("1", .fin 5)], 1, []⟩ ∧
    extractAndUpsert 1 State.init
        (.obj [("stats", .obj []),
          ("market_stats", .arr [.obj [("market_id", .num (.fin 1)), ("oi", .num (.fin 5))]])]) ≠
      upsertAll 1 State.init
        (specFirstNonEmpty matchers
          (.obj [("stats", .obj []),
            ("market_stats",
              .arr [.obj [("market_id", .num (.fin 1)), ("oi", .num (.fin 5))]])])) := by
  have h1 : extractAndUpsert 1 State.init
        (.obj [("stats", .obj []),
          ("market_stats", .arr [.obj [("market_id", .num (.fin 1)), ("oi", .num (.fin 5))]])]) =
      .normal State.init := by
    with_unfolding_all rfl
  have h2 : upsertAll 1 State.init
        (specFirstNonEmpty matchers
          (.obj [("stats", .obj []),
            ("market_stats",
              .arr [.obj [("market_id", .num (.fin 1)), ("oi", .num (.fin 5))]])])) =
      .normal ⟨[("1", .fin 5)], 1, []⟩ := by
    with_unfolding_all rfl
  refine ⟨h1, h2, ?_⟩
  rw [h1, h2]
  intro h
  have h3 := congrArg (fun c => c.state.lastExchangeOiUpdate) h
  simp [Completion.state, State.init] at h3

/-- C8, amended: for every parsed message, the handler performs the upserts of the pairs
produced by the prioritized matchers (list, `stats`, `market_stats`, `type`, `channel`),
tried in that order, of which the first whose shape test succeeds wins, even when it
yields no pair; the pairs are upserted in order, up to the first identifier whose
conversion to a string throws. -/
theorem first_applicable_matcher_wins (now : Nat) (st : State) (parsed : Json) :
    extractAndUpsert now st parsed = upsertAll now st (firstApplicable matchers parsed) := by
  have hlist : ∀ (s : State) (items : List Json),
      forEach (fun s item => upsertFrom now s (some item)) s items =
        upsertAll now s (items.flatMap fun item => pairOf (some item)) :=
    fun s items => forEach_bind _ _ _ (fun s x => upsertFrom_eq_upsertAll now s (some x)) s items
  cases parsed with
  | arr items =>
    simp [extractAndUpsert, truthy, typeOf, matchers, firstApplicable, listMatcher, hlist]
  | null =>
    simp [extractAndUpsert, truthy, matchers, firstApplicable, listMatcher, statsMatcher,
      marketStatsMatcher, typeMatcher, channelMatcher, Json.get, stringWith, upsertAll, forEach]
  | bool b =>
    simp [extractAndUpsert, typeOf, matchers, firstApplicable, listMatcher, statsMatcher,
      marketStatsMatcher, typeMatcher, channelMatcher, Json.get, stringWith, upsertAll, forEach]
  | num n =>
    simp [extractAndUpsert, typeOf, matchers, firstApplicable, listMatcher, statsMatcher,
      marketStatsMatcher, typeMatcher, channelMatcher, Json.get, stringWith, upsertAll, forEach]
  | str s =>
    simp [extractAndUpsert, typeOf, matchers, firstApplicable, listMatcher, statsMatcher,
      marketStatsMatcher, typeMatcher, channelMatcher, Json.get, stringWith, upsertAll, forEach]
  | obj kvs =>
    have hguard : (truthy (some (Json.obj kvs)) &&
        decide (typeOf (some (Json.obj kvs)) = .object)) = true := rfl
    simp only [extractAndUpsert, hguard, if_true, matchers, firstApplicable, listMatcher]
    by_cases hstats : (truthy ((Json.obj kvs).get "stats") &&
        decide (typeOf ((Json.obj kvs).get "stats") = .object)) = true
    · cases hget : (Json.obj kvs).get "stats" with
      | none => simp [hget, truthy] at hstats
      | some statsObj =>
        rw [hget] at hstats
        simp only [statsMatcher, hget, hstats, if_true]
        exact forEach_bind _ _ _ (fun s k => upsertStat_eq_upsertAll now statsObj s k) st _
    · have hsm : statsMatcher (.obj kvs) = none := by
        unfold statsMatcher
        split
        · rename_i statsObj hget
          rw [hget] at hstats
          simp [hstats]
        · rfl
      simp only [hstats, hsm]
      by_cases hms : (truthy ((Json.obj kvs).get "market_stats") &&
          isArray ((Json.obj kvs).get "market_stats")) = true
      · cases hget : (Json.obj kvs).get "market_stats" with
        | none => simp [hget, truthy] at hms
        | some a =>
          cases a with
          | arr items => simp [hget, truthy, isArray, arrayOrEmpty, marketStatsMatcher, hlist]
          | null => simp [hget, truthy] at hms
          | bool b => simp [hget, isArray] at hms
          | num n => simp [hget, isArray] at hms
          | str s => simp [hget, isArray] at hms
          | obj o => simp [hget, isArray] at hms
      · have hmm : marketStatsMatcher (.obj kvs) = none := by
          unfold marketStatsMatcher
          split
          · rename_i items hget
            simp [hget, truthy, isArray] at hms
          · rfl
        simp only [hms, hmm]
        by_cases htype : stringWith ((Json.obj kvs).get "type")
            (fun t => jsIncludes t "market_stats") = true
        · simp [htype, typeMatcher, upsertFrom_eq_upsertAll]
        · simp only [htype, typeMatcher]
          by_cases hch : stringWith ((Json.obj kvs).get "channel")
              (fun c => jsStartsWith c "market_stats") = true
          · simp [hch, channelMatcher, upsertFrom_eq_upsertAll]
          · simp [hch, channelMatcher, upsertAll, forEach]

theorem optProp_some (e : Json) (k : String) : optProp (some e) k = e.get k := by
  cases e <;> rfl

/-- The closure `tryExtractOi` on a parsed value, by the first of the three open-interest
fields that is neither absent nor `null`. -/
theorem tryExtractOi_some (e : Json) :
    tryExtractOi (some e) =
      match nullish (e.get "open_interest") (nullish (e.get "openInterest") (e.get "oi")) with
      | some (.str s) => if (stringToNumber s).isFinite then some (stringToNumber s) else none
      | some (.num n) => if n.isFinite then some n else none
      | _ => none := by
  cases e with
  | null => rfl
  | bool b => simp [tryExtractOi, typeOf, Json.get, nullish]
  | num n => simp [tryExtractOi, typeOf, Json.get, nullish]
  | str s => simp [tryExtractOi, typeOf, Json.get, nullish]
  | arr xs =>
    simp only [tryExtractOi, truthy, typeOf, optProp_some]
    rw [if_neg (by simp)]
    generalize nullish ((Json.arr xs).get "open_interest")
      (nullish ((Json.arr xs).get "openInterest") ((Json.arr xs).get "oi")) = w
    cases w with
    | none => rfl
    | some j => cases j <;> rfl
  | obj kvs =>
    simp only [tryExtractOi, truthy, typeOf, optProp_some]
    rw [if_neg (by simp)]
    generalize nullish ((Json.obj kvs).get "open_interest")
      (nullish ((Json.obj kvs).get "openInterest") ((Json.obj kvs).get "oi")) = w
    cases w with
    | none => rfl
    | some j => cases j <;> rfl

theorem nullish_eq_some_ne_null {a b c : JSVal} {mid : Json} (hc : c ≠ some .null)
    (h : nullish a (nullish b c) = some mid) : mid ≠ .null := by
  intro hmid
  subst hmid
  cases a with
  | some ja =>
    cases ja <;> simp [nullish] at h
    all_goals
      cases b with
      | some jb =>
        cases jb <;> simp [nullish] at h
        all_goals exact hc h
      | none =>
        simp [nullish] at h
        exact hc h
  | none =>
    cases b with
    | some jb =>
      cases jb <;> simp [nullish] at h
      all_goals exact hc h
    | none =>
      simp [nullish] at h
      exact hc h

/-- The claim C9 as stated fails at the element
`{open_interest: "abc", oi: 5, market_id: 1}`: it carries the finite open interest `5` in
`oi` and the market identifier `1` in `market_id`, yet neither as an element of a
list-shaped message nor as an element of a `market_stats` list does it cause an upsert,
because `open_interest`, which is not `null`, is the only field the handler converts. -/
theorem shadowed_open_interest_is_skipped :
    (Json.obj [("open_interest", .str "abc"), ("oi", .num (.fin 5)),
      ("market_id", .num (.fin 1))]).get "oi" = some (.num (.fin 5)) ∧
    (JSNum.fin 5).isFinite = true ∧
    (Json.obj [("open_interest", .str "abc"), ("oi", .num (.fin 5)),
      ("market_id", .num (.fin 1))]).get "market_id" = some (.num (.fin 1)) ∧
    (onMessage (stringifyWithin 1000) State.init 1
        (some (.arr [.obj [("open_interest", .str "abc"), ("oi", .num (.fin 5)),
          ("market_id", .num (.fin 1))]]))).marketIndexToOi = [] ∧
    (onMessage (stringifyWithin 1000) State.init 1
        (some (.obj [("market_stats", .arr [.obj [("open_interest", .str "abc"),
          ("oi", .num (.fin 5)), ("market_id", .num (.fin 1))]])]))).marketIndexToOi = [] := by
  refine ⟨rfl, rfl, rfl, ?_, ?_⟩
  · with_unfolding_all rfl
  · with_unfolding_all rfl

/-- C9, amended: a list-shaped message and a `market_stats` list are handled element by
element, in order, up to the first exception.  For an element whose `market` field is not
`null`, let the open interest be the first of `open_interest`, `openInterest`, `oi` that is
neither absent nor `null`, and the identifier the first of `market_id`, `marketIndex`,
`market` that is neither absent nor `null`.  When the open interest is a number, or a string
that `Number` converts to a number, that is finite, and the identifier is present and has a
string form, the element writes that number under that string; when the open interest is
not such a value or no identifier is present, the element writes nothing. -/
theorem element_upsert_rule (now : Nat) (e : Json) (hmarket : e.get "market" ≠ some .null) :
    (∀ (st : State) (items : List Json),
      extractAndUpsert now st (.arr items) =
        forEach (fun s item => upsertFrom now s (some item)) st items) ∧
    (∀ (st : State) (kvs : List (String × Json)) (items : List Json),
      (∀ o, kvs.lookup "stats" ≠ some (.obj o)) → (∀ xs, kvs.lookup "stats" ≠ some (.arr xs)) →
      kvs.lookup "market_stats" = some (.arr items) →
      extractAndUpsert now st (.obj kvs) =
        forEach (fun s item => upsertFrom now s (some item)) st items) ∧
    (∀ (st : State) (v : JSNum) (mid : Json) (key : String),
      (nullish (e.get "open_interest") (nullish (e.get "openInterest") (e.get "oi")) =
          some (.num v) ∨
        ∃ s, nullish (e.get "open_interest") (nullish (e.get "openInterest") (e.get "oi")) =
          some (.str s) ∧ stringToNumber s = v) →
      v.isFinite = true →
      nullish (e.get "market_id") (nullish (e.get "marketIndex") (e.get "market")) = some mid →
      toStr mid = .ok key →
      upsertFrom now st (some e) =
        .normal ⟨mapSet key v st.marketIndexToOi, now, st.wsSamples⟩) ∧
    (∀ st : State,
      ((¬ ∃ v : JSNum, v.isFinite = true ∧
          (nullish (e.get "open_interest") (nullish (e.get "openInterest") (e.get "oi")) =
              some (.num v) ∨
            ∃ s, nullish (e.get "open_interest") (nullish (e.get "openInterest") (e.get "oi")) =
              some (.str s) ∧ stringToNumber s = v)) ∨
        nullish (e.get "market_id") (nullish (e.get "marketIndex") (e.get "market")) = none) →
      upsertFrom now st (some e) = .normal st) := by
  have hid : marketIdOf (some e) =
      nullish (e.get "market_id") (nullish (e.get "marketIndex") (e.get "market")) := by
    simp [marketIdOf, optProp_some]
  refine ⟨?_, ?_, ?_, ?_⟩
  · intro st items
    simp [extractAndUpsert, truthy, typeOf]
  · intro st kvs items hso hsa hms
    have hguard : (truthy (some (Json.obj kvs)) &&
        decide (typeOf (some (Json.obj kvs)) = .object)) = true := rfl
    have hstats : (truthy ((Json.obj kvs).get "stats") &&
        decide (typeOf ((Json.obj kvs).get "stats") = .object)) = false :=
      object_test_false _ hso hsa
    have hget : (Json.obj kvs).get "market_stats" = some (.arr items) := hms
    simp only [extractAndUpsert, hguard, hstats, if_true, Bool.false_eq_true, if_false,
      hget, arrayOrEmpty]
    exact if_pos rfl
  · intro st v mid key hoi hv hmid hkey
    have hnull : mid ≠ .null := nullish_eq_some_ne_null hmarket hmid
    have hx : tryExtractOi (some e) = some v := by
      rw [tryExtractOi_some]
      rcases hoi with h | ⟨s, h, hs⟩
      · simp [h, hv]
      · subst hs
        simp [h, hv]
    unfold upsertFrom
    rw [hx, hid, hmid]
    exact upsertMarket_of_key st now v hnull hkey hv
  · intro st h
    unfold upsertFrom
    rcases h with h | h
    · have hx : tryExtractOi (some e) = none := by
        rw [tryExtractOi_some]
        split
        · rename_i s hs
          split
          · rename_i hf
            exact absurd ⟨stringToNumber s, hf, Or.inr ⟨s, hs, rfl⟩⟩ h
          · rfl
        · rename_i n hn
          split
          · rename_i hf
            exact absurd ⟨n, hf, Or.inl hn⟩ h
          · rfl
        · rfl
      rw [hx]
    · rw [hid, h]
      split
      · rename_i heq
        simp at heq
      · rfl

/-- C9 amended, at the element `{openInterest: "7", marketIndex: 2}` and the store
`"2" ↦ 1`. -/
theorem element_upsert_rule_witness :
    upsertFrom 4 ⟨[("2", .fin 1)], 0, []⟩
        (some (.obj [("openInterest", .str "7"), ("marketIndex", .num (.fin 2))])) =
      .normal ⟨mapSet "2" (.fin 7) [("2", .fin 1)], 4, []⟩ :=
  (element_upsert_rule 4 (.obj [("openInterest", .str "7"), ("marketIndex", .num (.fin 2))])
    (by simp [Json.get, List.lookup])).2.2.1 ⟨[("2", .fin 1)], 0, []⟩ (.fin 7) (.num (.fin 2)) "2"
    (Or.inr ⟨"7", by simp [Json.get, List.lookup, nullish], by with_unfolding_all rfl⟩) rfl
    (by simp [Json.get, List.lookup, nullish]) (by with_unfolding_all rfl)

end LLPOI
